import Mathlib

/-!
Verification of the Pollivu anonymous-vote integrity subsystem.

Shallow embedding of the relevant repository code:
- `utils.py` (token derivation and poll-id validation),
- `encryption.py` (AES-256-GCM authenticated encryption with base64 transport),
- `models.py` (`Poll.is_active`, `Poll.get_question`, `EncryptedMixin.decrypt_field`),
- `services/poll_service.py` (`PollService.vote`).

Strings and byte sequences are modelled as `List Nat` of their UTF-8 byte
values; Python `int` database columns are modelled as `Int`; timestamps are
modelled as `Int` instants, with the current time passed explicitly to the
operations that read the clock.
-/

set_option maxHeartbeats 4000000
set_option maxRecDepth 8192

namespace Pollivu

/-! ## Generic list helpers used by the embedding -/

/-- Update the first element of a list satisfying `p` by applying `f`,
mirroring a SQLAlchemy mutation of the single row returned by
`Query.first()` or `Query.get`. -/
def updateFirst (p : α → Bool) (f : α → α) : List α → List α
  | [] => []
  | x :: xs => if p x then f x :: xs else x :: updateFirst p f xs

/-! ## SHA-256 (`hashlib.sha256`), modelled bit-faithfully over byte lists -/

/-- Truncate to a 32-bit word, the implicit mask of Python/C 32-bit
hash arithmetic. -/
def w32 (x : Nat) : Nat := x % 4294967296

/-- Rotate a 32-bit word right by `n`. -/
def rotr (n x : Nat) : Nat := w32 ((x >>> n) ||| (x <<< (32 - n)))

/-- SHA-256 Ch function; the complement is taken inside 32 bits. -/
def shaCh (x y z : Nat) : Nat := (x &&& y) ^^^ ((x ^^^ 4294967295) &&& z)

/-- SHA-256 Maj function. -/
def shaMaj (x y z : Nat) : Nat := (x &&& y) ^^^ (x &&& z) ^^^ (y &&& z)

/-- SHA-256 big sigma 0. -/
def bsig0 (x : Nat) : Nat := rotr 2 x ^^^ rotr 13 x ^^^ rotr 22 x

/-- SHA-256 big sigma 1. -/
def bsig1 (x : Nat) : Nat := rotr 6 x ^^^ rotr 11 x ^^^ rotr 25 x

/-- SHA-256 small sigma 0. -/
def ssig0 (x : Nat) : Nat := rotr 7 x ^^^ rotr 18 x ^^^ (x >>> 3)

/-- SHA-256 small sigma 1. -/
def ssig1 (x : Nat) : Nat := rotr 17 x ^^^ rotr 19 x ^^^ (x >>> 10)

/-- The 64 SHA-256 round constants of FIPS 180-4, packed big-endian into a
single natural number, 32 bits per constant. -/
def sha256KNat : Nat := 0x428a2f9871374491b5c0fbcfe9b5dba53956c25b59f111f1923f82a4ab1c5ed5d807aa9812835b01243185be550c7dc372be5d7480deb1fe9bdc06a7c19bf174e49b69c1efbe47860fc19dc6240ca1cc2de92c6f4a7484aa5cb0a9dc76f988da983e5152a831c66db00327c8bf597fc7c6e00bf3d5a7914706ca63511429296727b70a852e1b21384d2c6dfc53380d13650a7354766a0abb81c2c92e92722c85a2bfe8a1a81a664bc24b8b70c76c51a3d192e819d6990624f40e3585106aa07019a4c1161e376c082748774c34b0bcb5391c0cb34ed8aa4a5b9cca4f682e6ff3748f82ee78a5636f84c878148cc7020890befffaa4506cebbef9a3f7c67178f2

/-- The 64 SHA-256 round constants, in round order. -/
def sha256K : List Nat :=
  (List.range 64).map (fun i => (sha256KNat >>> (32 * (63 - i))) % 4294967296)

/-- The eight SHA-256 working variables. -/
structure Hash8 where
  a : Nat
  b : Nat
  c : Nat
  d : Nat
  e : Nat
  f : Nat
  g : Nat
  h : Nat
deriving DecidableEq

/-- SHA-256 initial hash value. -/
def sha256init : Hash8 :=
  ⟨0x6a09e667, 0xbb67ae85, 0x3c6ef372, 0xa54ff53a,
   0x510e527f, 0x9b05688c, 0x1f83d9ab, 0x5be0cd19⟩

/-- Group a byte list into big-endian 32-bit words. -/
def toWords32 : List Nat → List Nat
  | a :: b :: c :: d :: rest => (((a * 256 + b) * 256 + c) * 256 + d) :: toWords32 rest
  | _ => []

/-- Extend a 16-word message schedule by `fuel` further words. -/
def sha256extendW (w : List Nat) : Nat → List Nat
  | 0 => w
  | n + 1 =>
    let l := w.length
    sha256extendW
      (w ++ [w32 (ssig1 (w.getD (l - 2) 0) + w.getD (l - 7) 0 +
                  ssig0 (w.getD (l - 15) 0) + w.getD (l - 16) 0)]) n

/-- One SHA-256 compression round for round constant `k` and schedule word `w`. -/
def sha256round (st : Hash8) (k w : Nat) : Hash8 :=
  let t1 := w32 (st.h + bsig1 st.e + shaCh st.e st.f st.g + k + w)
  let t2 := w32 (bsig0 st.a + shaMaj st.a st.b st.c)
  ⟨w32 (t1 + t2), st.a, st.b, st.c, w32 (st.d + t1), st.e, st.f, st.g⟩

/-- Compress one 64-byte block into the running hash. -/
def sha256compress (hv : Hash8) (block : List Nat) : Hash8 :=
  let ws := sha256extendW (toWords32 block) 48
  let st := (sha256K.zip ws).foldl (fun s kw => sha256round s kw.1 kw.2) hv
  ⟨w32 (hv.a + st.a), w32 (hv.b + st.b), w32 (hv.c + st.c), w32 (hv.d + st.d),
   w32 (hv.e + st.e), w32 (hv.f + st.f), w32 (hv.g + st.g), w32 (hv.h + st.h)⟩

/-- Big-endian bytes of a natural number, fixed width. -/
def natToBytes : Nat → Nat → List Nat
  | 0, _ => []
  | w + 1, n => natToBytes w (n / 256) ++ [n % 256]

/-- Standard SHA-256 padding: `0x80`, zeros, then the 64-bit bit length. -/
def sha256pad (m : List Nat) : List Nat :=
  m ++ 128 :: List.replicate ((64 - (m.length + 9) % 64) % 64) 0 ++
    natToBytes 8 (8 * m.length)

/-- Split a byte list into 64-byte chunks. -/
def chunks64 (l : List Nat) : List (List Nat) :=
  if h : l = [] then [] else l.take 64 :: chunks64 (l.drop 64)
termination_by l.length
decreasing_by
  simp only [List.length_drop]
  exact Nat.sub_lt (List.length_pos.mpr h) (by decide)

/-- Final SHA-256 state after absorbing a whole byte message. -/
def sha256state (m : List Nat) : Hash8 :=
  (chunks64 (sha256pad m)).foldl sha256compress sha256init

/-- The 256-bit SHA-256 digest of a byte message, as one natural number. -/
def sha256Nat (m : List Nat) : Nat :=
  let s := sha256state m
  ((((((w32 s.a * 4294967296 + w32 s.b) * 4294967296 + w32 s.c) * 4294967296 +
      w32 s.d) * 4294967296 + w32 s.e) * 4294967296 + w32 s.f) * 4294967296 +
      w32 s.g) * 4294967296 + w32 s.h

/-- Lowercase hex digit of a nibble, as an ASCII byte. -/
def hexChar (n : Nat) : Nat := if n < 10 then 48 + n else 87 + n

/-- Big-endian fixed-width hex rendering of a natural, as ASCII bytes. -/
def natToHexBytes : Nat → Nat → List Nat
  | 0, _ => []
  | w + 1, v => natToHexBytes w (v / 16) ++ [hexChar (v % 16)]

/-- The `hexdigest()` of `hashlib.sha256(m)`: 64 lowercase hex characters,
as their ASCII byte values. -/
def sha256hex (m : List Nat) : List Nat := natToHexBytes 64 (sha256Nat m)

/-! ## Token engine (`utils.py`) -/

/-- The message hashed by `generate_voter_token`: the UTF-8 bytes of the
f-string `"{session_id}:{poll_id}"` (58 is the colon). -/
def tokenMessage (session_id poll_id : List Nat) : List Nat :=
  session_id ++ 58 :: poll_id

/-- `utils.generate_voter_token`: SHA-256 hexdigest of
`"{session_id}:{poll_id}"`. -/
def generate_voter_token (session_id poll_id : List Nat) : List Nat :=
  sha256hex (tokenMessage session_id poll_id)

/-- `utils.hash_voter_token`: SHA-256 hexdigest of the (hex string) token. -/
def hash_voter_token (token : List Nat) : List Nat :=
  sha256hex token

/-- The stored voter hash for a session on a poll, as computed inside
`PollService.vote`. -/
def voterHashOf (session_id poll_id : List Nat) : List Nat :=
  hash_voter_token (generate_voter_token session_id poll_id)

/-! ## Poll aggregate (`models.py`)

Only the columns read or written by the verified operations are modelled;
presentation-only columns (question text, display order, timestamps of
creation, share flags and so on) do not influence `PollService.vote` and
are omitted from the records. -/

/-- The `polls` row fields used by voting: `id`, `is_closed`, `expires_at`,
`allow_vote_change`, `total_votes`. -/
structure PollS where
  id : List Nat
  is_closed : Bool
  expires_at : Option Int
  allow_vote_change : Bool
  total_votes : Int
deriving DecidableEq

/-- The `poll_options` row fields used by voting: `id`, `poll_id`,
`vote_count`. -/
structure PollOptionS where
  id : Nat
  poll_id : List Nat
  vote_count : Int
deriving DecidableEq

/-- A `votes` row: `poll_id`, `voter_token_hash`, `option_id`. -/
structure VoteS where
  poll_id : List Nat
  voter_token_hash : List Nat
  option_id : Nat
deriving DecidableEq

/-- `Poll.is_expired`: true when the current time is strictly past
`expires_at`; a poll without expiry never expires.  Recomputed from the
clock on every access. -/
def is_expired (p : PollS) (now : Int) : Bool :=
  match p.expires_at with
  | none => false
  | some e => e < now

/-- `Poll.is_active`: not closed and not expired. -/
def is_active (p : PollS) (now : Int) : Bool :=
  !p.is_closed && !is_expired p now

/-- The database state touched by `PollService.vote`: the poll row, the
`poll_options` table and the `votes` table. -/
structure ServiceState where
  poll : PollS
  options : List PollOptionS
  votes : List VoteS
deriving DecidableEq

/-- The filter of `PollOption.query.filter_by(id=option_id, poll_id=poll.id)`. -/
def optMatch (pid : List Nat) (oid : Nat) (o : PollOptionS) : Bool :=
  o.id == oid && o.poll_id == pid

/-- The filter of `Vote.query.filter_by(poll_id=poll.id,
voter_token_hash=voter_hash)`. -/
def voteMatch (pid h : List Nat) (v : VoteS) : Bool :=
  v.poll_id == pid && v.voter_token_hash == h

/-- Outcome of `PollService.vote`, abstracting the returned
`(success, message, updated_data)` triple. -/
inductive VoteResult where
  | inactive
  | invalidOption
  | alreadyVoted
  | changed
  | recorded
deriving DecidableEq

/-- `PollService.vote`, the complete control flow of
`services/poll_service.py` lines 78-142: activity check, option lookup,
voter-hash derivation, existing-vote lookup; then either vote-change
(decrement old counter with floor at zero, reassign the vote row,
increment new counter), `AlreadyVoted` rejection, or new-vote insertion
(increment option counter and poll total, append the row). -/
def vote (st : ServiceState) (option_id : Nat) (session_id : List Nat) (now : Int) :
    VoteResult × ServiceState :=
  if is_active st.poll now then
    match st.options.find? (optMatch st.poll.id option_id) with
    | none => (.invalidOption, st)
    | some _option =>
      let voter_hash := voterHashOf session_id st.poll.id
      match st.votes.find? (voteMatch st.poll.id voter_hash) with
      | some existing_vote =>
        if st.poll.allow_vote_change then
          let decOld :=
            updateFirst (fun o => o.id == existing_vote.option_id)
              (fun o => { o with vote_count := max 0 (o.vote_count - 1) }) st.options
          let st1 :=
            match st.options.find? (fun o => o.id == existing_vote.option_id) with
            | some _ => { st with options := decOld }
            | none => st
          let reassigned :=
            updateFirst (voteMatch st.poll.id voter_hash)
              (fun v => { v with option_id := option_id }) st1.votes
          let st2 := { st1 with votes := reassigned }
          let incNew :=
            updateFirst (optMatch st.poll.id option_id)
              (fun o => { o with vote_count := o.vote_count + 1 }) st2.options
          (.changed, { st2 with options := incNew })
        else (.alreadyVoted, st)
      | none =>
        let incNew :=
          updateFirst (optMatch st.poll.id option_id)
            (fun o => { o with vote_count := o.vote_count + 1 }) st.options
        (.recorded,
         { poll := { st.poll with total_votes := st.poll.total_votes + 1 },
           options := incNew,
           votes := st.votes ++ [⟨st.poll.id, voter_hash, option_id⟩] })
  else (.inactive, st)

/-- States reachable from `s0` by any sequence of `vote` calls (with any
arguments and at any times). -/
inductive ReachFrom : ServiceState → ServiceState → Prop where
  | refl (st : ServiceState) : ReachFrom st st
  | step (s0 st : ServiceState) (oid : Nat) (sid : List Nat) (now : Int) :
      ReachFrom s0 st → ReachFrom s0 (vote st oid sid now).2

/-- Number of `votes` rows carrying a given `(poll_id, voter_token_hash)`
pair. -/
def countKey (votes : List VoteS) (pid h : List Nat) : Nat :=
  votes.countP (voteMatch pid h)

/-- Number of `votes` rows pointing at option `oid`. -/
def countVotesFor (votes : List VoteS) (oid : Nat) : Nat :=
  votes.countP (fun v => v.option_id == oid)

/-- The identifying `(poll_id, voter_token_hash)` pair of a vote row. -/
def voteKey (v : VoteS) : List Nat × List Nat :=
  (v.poll_id, v.voter_token_hash)

/-! ## Base64 transport (`base64.urlsafe_b64encode` / `urlsafe_b64decode`)

CPython's decoder (`binascii.a2b_base64`, `validate=False`) is modelled on
inputs whose bytes are all in the url-safe alphabet or `=`; a byte outside
it is modelled as a decode error (CPython discards such bytes — no input
in this development exercises that path).  Crucially, like CPython the
model does NOT reject a final quantum whose unused low bits are nonzero:
they are silently dropped. -/

/-- Value of a url-safe base64 alphabet byte (`A-Z a-z 0-9 - _`). -/
def b64val (c : Nat) : Option Nat :=
  if 65 ≤ c ∧ c ≤ 90 then some (c - 65)
  else if 97 ≤ c ∧ c ≤ 122 then some (26 + (c - 97))
  else if 48 ≤ c ∧ c ≤ 57 then some (52 + (c - 48))
  else if c = 45 then some 62
  else if c = 95 then some 63
  else none

/-- Url-safe base64 alphabet byte of a 6-bit value. -/
def b64char (v : Nat) : Nat :=
  if v < 26 then 65 + v
  else if v < 52 then 97 + (v - 26)
  else if v < 62 then 48 + (v - 52)
  else if v = 62 then 45
  else 95

/-- `base64.urlsafe_b64encode` over bytes, producing ASCII bytes with `=`
padding (61). -/
def b64encode : List Nat → List Nat
  | x :: y :: z :: rest =>
    b64char (x / 4) :: b64char ((x % 4) * 16 + y / 16) ::
      b64char ((y % 16) * 4 + z / 64) :: b64char (z % 64) :: b64encode rest
  | [x, y] => [b64char (x / 4), b64char ((x % 4) * 16 + y / 16),
               b64char ((y % 16) * 4), 61]
  | [x] => [b64char (x / 4), b64char ((x % 4) * 16), 61, 61]
  | [] => []

/-- `base64.urlsafe_b64decode` over ASCII bytes, processing four
characters at a time; a quantum ending in `=` must be final.  The unused
low bits of the final quantum are ignored, as CPython ignores them. -/
def b64decode : List Nat → Except Unit (List Nat)
  | [] => .ok []
  | a :: b :: c :: d :: rest =>
    match b64val a, b64val b with
    | some va, some vb =>
      if c = 61 then
        if d = 61 ∧ rest = [] then .ok [va * 4 + vb / 16] else .error ()
      else
        match b64val c with
        | some vc =>
          if d = 61 then
            if rest = [] then .ok [va * 4 + vb / 16, (vb % 16) * 16 + vc / 4]
            else .error ()
          else
            match b64val d with
            | some vd =>
              match b64decode rest with
              | .ok tail =>
                .ok ((va * 4 + vb / 16) :: ((vb % 16) * 16 + vc / 4) ::
                     ((vc % 4) * 64 + vd) :: tail)
              | .error e => .error e
            | none => .error ()
        | none => .error ()
    | _, _ => .error ()
  | _ => .error ()

/-! ## AES-256 block cipher (`cryptography`'s AESGCM key engine) -/

/-- The AES S-box, packed little-endian by index into one natural:
byte `i` of this constant is `SBOX[i]`. -/
def sboxNat : Nat :=
  0x16bb54b00f2d99416842e6bf0d89a18cdf2855cee9871e9b948ed9691198f8e19e1dc186b95735610ef6034866b53e708a8bbd4b1f74dde8c6b4a61c2e2578ba08ae7a65eaf4566ca94ed58d6d37c8e779e4959162acd3c25c2406490a3a32e0db0b5ede14b8ee4688902a22dc4f816073195d643d7ea7c41744975fec130ccdd2f3ff1021dab6bcf5389d928f40a351a89f3c507f02f94585334d43fbaaefd0cf584c4a39becb6a5bb1fc20ed00d153842fe329b3d63b52a05a6e1b1a2c830975b227ebe28012079a059618c323c7041531d871f1e5a534ccf73f362693fdb7c072a49cafa2d4adf04759fa7dc982ca76abd7fe2b670130c56f6bf27b777c63

/-- AES S-box lookup. -/
def sbox (x : Nat) : Nat := (sboxNat >>> (8 * (x % 256))) % 256

/-- GF(2^8) doubling (`xtime`). -/
def xtime (v : Nat) : Nat :=
  if 128 ≤ v % 256 then ((2 * (v % 256)) % 256) ^^^ 27 else 2 * (v % 256)

/-- Apply the S-box to each byte of a 32-bit word. -/
def subWord (w : Nat) : Nat :=
  ((sbox (w / 16777216) * 256 + sbox (w / 65536 % 256)) * 256 +
    sbox (w / 256 % 256)) * 256 + sbox (w % 256)

/-- Rotate a 32-bit word left by one byte. -/
def rotWord (w : Nat) : Nat := (w % 16777216) * 256 + w / 16777216

/-- AES-256 round constants (as the high byte of the xored word). -/
def aesRcon : List Nat := [1, 2, 4, 8, 16, 32, 64]

/-- AES-256 key expansion: 60 32-bit words from a 32-byte key. -/
def expandKey (key : List Nat) : List Nat :=
  let w0 := (List.range 8).map (fun k =>
    ((key.getD (4 * k) 0 * 256 + key.getD (4 * k + 1) 0) * 256 +
      key.getD (4 * k + 2) 0) * 256 + key.getD (4 * k + 3) 0)
  (List.range 52).foldl (fun ws _ =>
    let i := ws.length
    let t := ws.getD (i - 1) 0
    let t :=
      if i % 8 = 0 then
        subWord (rotWord t) ^^^ (aesRcon.getD (i / 8 - 1) 0 * 16777216)
      else if i % 8 = 4 then subWord t
      else t
    ws ++ [ws.getD (i - 8) 0 ^^^ t]) w0

/-- Big-endian bytes of the four words of round key `r`. -/
def roundKey (ws : List Nat) (r : Nat) : List Nat :=
  natToBytes 4 (ws.getD (4 * r) 0) ++ natToBytes 4 (ws.getD (4 * r + 1) 0) ++
  natToBytes 4 (ws.getD (4 * r + 2) 0) ++ natToBytes 4 (ws.getD (4 * r + 3) 0)

/-- AddRoundKey: bytewise xor of state and round key. -/
def addRoundKey (st rk : List Nat) : List Nat :=
  List.zipWith (· ^^^ ·) st rk

/-- SubBytes over the 16-byte column-major state. -/
def subBytes (st : List Nat) : List Nat := st.map sbox

/-- ShiftRows over the column-major state as an index permutation. -/
def shiftRows (st : List Nat) : List Nat :=
  [st.getD 0 0, st.getD 5 0, st.getD 10 0, st.getD 15 0,
   st.getD 4 0, st.getD 9 0, st.getD 14 0, st.getD 3 0,
   st.getD 8 0, st.getD 13 0, st.getD 2 0, st.getD 7 0,
   st.getD 12 0, st.getD 1 0, st.getD 6 0, st.getD 11 0]

/-- MixColumns on one column. -/
def mixCol (a b c d : Nat) : List Nat :=
  [xtime a ^^^ (xtime b ^^^ b) ^^^ c ^^^ d,
   a ^^^ xtime b ^^^ (xtime c ^^^ c) ^^^ d,
   a ^^^ b ^^^ xtime c ^^^ (xtime d ^^^ d),
   (xtime a ^^^ a) ^^^ b ^^^ c ^^^ xtime d]

/-- MixColumns over the state. -/
def mixColumns (st : List Nat) : List Nat :=
  mixCol (st.getD 0 0) (st.getD 1 0) (st.getD 2 0) (st.getD 3 0) ++
  mixCol (st.getD 4 0) (st.getD 5 0) (st.getD 6 0) (st.getD 7 0) ++
  mixCol (st.getD 8 0) (st.getD 9 0) (st.getD 10 0) (st.getD 11 0) ++
  mixCol (st.getD 12 0) (st.getD 13 0) (st.getD 14 0) (st.getD 15 0)

/-- AES-256 encryption of one 16-byte block. -/
def aesBlock (key block : List Nat) : List Nat :=
  let ws := expandKey key
  let st0 := addRoundKey block (roundKey ws 0)
  let st := (List.range 13).foldl
    (fun s r => addRoundKey (mixColumns (shiftRows (subBytes s))) (roundKey ws (r + 1)))
    st0
  addRoundKey (shiftRows (subBytes st)) (roundKey ws 14)

/-! ## GCM mode (`AESGCM.encrypt` / `AESGCM.decrypt`, no associated data) -/

/-- Big-endian value of a 16-byte block. -/
def blockToNat (block : List Nat) : Nat :=
  block.foldl (fun acc b => acc * 256 + b % 256) 0

/-- Split a byte list into 16-byte chunks. -/
def chunks16 (l : List Nat) : List (List Nat) :=
  if h : l = [] then [] else l.take 16 :: chunks16 (l.drop 16)
termination_by l.length
decreasing_by
  simp only [List.length_drop]
  exact Nat.sub_lt (List.length_pos.mpr h) (by decide)

/-- Carry-less GF(2^128) multiplication with the GHASH reduction
polynomial. -/
def gmul (x y : Nat) : Nat :=
  ((List.range 128).foldl (fun zv i =>
    (if (x >>> (127 - i)) % 2 = 1 then zv.1 ^^^ zv.2 else zv.1,
     if zv.2 % 2 = 1 then (zv.2 >>> 1) ^^^ 0xe1000000000000000000000000000000
     else zv.2 >>> 1)) ((0 : Nat), y)).1

/-- GHASH over whole blocks given the hash subkey `h`. -/
def ghash (h : Nat) (blocks : List Nat) : Nat :=
  blocks.foldl (fun y b => gmul (y ^^^ b) h) 0

/-- The counter block `nonce ‖ ctr` for a 96-bit nonce. -/
def ctrBlock (nonce : List Nat) (ctr : Nat) : List Nat :=
  nonce ++ natToBytes 4 (ctr % 4294967296)

/-- The CTR keystream for `n` blocks, starting at counter 2 as GCM does
for the message body. -/
def keystream (key nonce : List Nat) (n : Nat) : List Nat :=
  ((List.range n).map (fun j => aesBlock key (ctrBlock nonce (2 + j)))).flatten

/-- GCM ciphertext body: plaintext xored with the keystream. -/
def gcmCt (key nonce pt : List Nat) : List Nat :=
  List.zipWith (· ^^^ ·) pt (keystream key nonce ((pt.length + 15) / 16))

/-- The GCM authentication tag over a ciphertext (no associated data):
`E(K, J0) ⊕ GHASH_H(pad(ct) ‖ len)`. -/
def gcmTag (key nonce ct : List Nat) : List Nat :=
  let h := blockToNat (aesBlock key (List.replicate 16 0))
  let padded := ct ++ List.replicate ((16 - ct.length % 16) % 16) 0
  let s := ghash h ((chunks16 padded).map blockToNat ++ [8 * ct.length])
  List.zipWith (· ^^^ ·) (aesBlock key (ctrBlock nonce 1)) (natToBytes 16 s)

/-! ## `AES256Encryption` (`encryption.py`) -/

/-- Decryption failure surfaced by `AES256Encryption.decrypt` as a raised
`ValueError` (tampered data, wrong key, or malformed transport). -/
inductive DecError where
  | decryptionFailed
deriving DecidableEq

/-- Decidable equality for fallible results, so witnesses can be checked
by evaluation. -/
instance {ε α : Type} [DecidableEq ε] [DecidableEq α] : DecidableEq (Except ε α) :=
  fun x y =>
    match x, y with
    | .ok a, .ok b =>
      if h : a = b then .isTrue (by rw [h]) else .isFalse (fun he => h (Except.ok.inj he))
    | .error e, .error f =>
      if h : e = f then .isTrue (by rw [h]) else .isFalse (fun he => h (Except.error.inj he))
    | .ok _, .error _ => .isFalse (fun he => Except.noConfusion he)
    | .error _, .ok _ => .isFalse (fun he => Except.noConfusion he)

/-- `AES256Encryption.encrypt`: empty plaintext short-circuits to the
empty string; otherwise base64`(nonce ‖ AESGCM-ct ‖ tag)`.  The random
nonce drawn from `os.urandom(12)` is passed explicitly. -/
def encrypt (key nonce pt : List Nat) : List Nat :=
  if pt = [] then []
  else b64encode (nonce ++ (gcmCt key nonce pt ++ gcmTag key nonce (gcmCt key nonce pt)))

/-- `AES256Encryption.decrypt`: empty input maps to the empty string;
otherwise base64-decode, split off the 12-byte nonce, recompute the tag
over the ciphertext body and compare with the stored tag; any failure
raises, modelled as `DecError`. -/
def decrypt (key blob : List Nat) : Except DecError (List Nat) :=
  if blob = [] then .ok []
  else
    match b64decode blob with
    | .error _ => .error .decryptionFailed
    | .ok data =>
      let nonce := data.take 12
      let rest := data.drop 12
      let ct := rest.take (rest.length - 16)
      let tag := rest.drop (rest.length - 16)
      if gcmTag key nonce ct = tag then
        .ok (List.zipWith (· ^^^ ·) ct (keystream key nonce ((ct.length + 15) / 16)))
      else .error .decryptionFailed

/-! ## PBKDF2 key derivation (`AES256Encryption._derive_key`) -/

/-- HMAC-SHA256 with a 64-byte block size. -/
def hmacSha256 (key msg : List Nat) : List Nat :=
  let k0 := if 64 < key.length then natToBytes 32 (sha256Nat key) else key
  let k0p := k0 ++ List.replicate (64 - k0.length) 0
  natToBytes 32 (sha256Nat ((k0p.map (· ^^^ 92)) ++
    natToBytes 32 (sha256Nat ((k0p.map (· ^^^ 54)) ++ msg))))

/-- The xor-accumulating PBKDF2 iteration. -/
def pbkdf2iter (p u acc : List Nat) : Nat → List Nat
  | 0 => acc
  | n + 1 =>
    let u2 := hmacSha256 p u
    pbkdf2iter p u2 (List.zipWith (· ^^^ ·) acc u2) n

/-- `AES256Encryption._derive_key`: PBKDF2-HMAC-SHA256, 100000
iterations, 32-byte output (a single PBKDF2 block). -/
def derive_key (secret salt : List Nat) : List Nat :=
  let u1 := hmacSha256 secret (salt ++ [0, 0, 0, 1])
  pbkdf2iter secret u1 u1 99999

/-! ## Encrypted fields (`models.py`) -/

/-- `EncryptedMixin.decrypt_field`: empty stored value maps to the empty
string; a decryption error is swallowed and becomes the empty string. -/
def decrypt_field (key enc : List Nat) : List Nat :=
  if enc = [] then []
  else
    match decrypt key enc with
    | .ok pt => pt
    | .error _ => []

/-- The `Poll` columns read by `get_question`. -/
structure PollRecord where
  is_encrypted : Bool
  question_encrypted : List Nat
  question : List Nat
deriving DecidableEq

/-- `Poll.get_question`: when the poll is encrypted, has a stored payload
and a truthy (non-empty) key is supplied, return the decrypted field
(whose decryption failures have already been mapped to the empty string
by `decrypt_field`, so the plaintext fallback branch of the `try` is
unreachable); otherwise — including when the supplied key is the falsy
empty string — the plaintext column. -/
def get_question (p : PollRecord) (secret_key : Option (List Nat)) : List Nat :=
  match secret_key with
  | some k =>
    if p.is_encrypted && !p.question_encrypted.isEmpty && !k.isEmpty then
      decrypt_field k p.question_encrypted
    else p.question
  | none => p.question

/-! ## Poll id validation (`utils.is_valid_poll_id`) -/

/-- Membership in the character class `[A-Za-z0-9_-]`. -/
def isPollChar (c : Nat) : Bool :=
  (65 ≤ c && c ≤ 90) || (97 ≤ c && c ≤ 122) || (48 ≤ c && c ≤ 57) ||
    c == 95 || c == 45

/-- `utils.is_valid_poll_id`: `bool(re.match(r'^[A-Za-z0-9_-]{8,32}$', s))`
preceded by an emptiness guard.  Python's `$` matches at the end of the
string or just before one trailing newline, so a match succeeds exactly
when 8 to 32 class characters are followed by nothing or by a single
final `\n` (10). -/
def is_valid_poll_id (s : List Nat) : Bool :=
  if s.isEmpty then false
  else
    (8 ≤ s.length && s.length ≤ 32 && s.all isPollChar) ||
    (9 ≤ s.length && s.length ≤ 33 && s.getLast? == some 10 &&
      s.dropLast.all isPollChar)

/-- The spec-side acceptance predicate: 8 to 32 characters drawn from
`[A-Za-z0-9_-]`. -/
def pollIdCore (s : List Nat) : Prop :=
  8 ≤ s.length ∧ s.length ≤ 32 ∧ ∀ c ∈ s, isPollChar c = true

instance (s : List Nat) : Decidable (pollIdCore s) := by
  unfold pollIdCore; infer_instance

/-- Bookkeeping invariant tying the denormalised counters to the `votes`
table: option ids are unique, each option's `vote_count` equals the
number of vote rows pointing at it, every vote points at an existing
option, and the poll total equals the number of vote rows. -/
def CountsInv (st : ServiceState) : Prop :=
  (st.options.map (fun o => o.id)).Nodup ∧
  (∀ m (hm : m < st.options.length),
      st.options[m].vote_count = (countVotesFor st.votes st.options[m].id : Int)) ∧
  (∀ v ∈ st.votes, v.option_id ∈ st.options.map (fun o => o.id)) ∧
  st.poll.total_votes = (st.votes.length : Int)

/-! ## Helper lemmas about `updateFirst`, `find?` and `countP` -/

theorem updateFirst_countP {p q : α → Bool} {f : α → α} (l : List α)
    (hf : ∀ x, q (f x) = q x) :
    (updateFirst p f l).countP q = l.countP q := by
  induction l with
  | nil => rfl
  | cons x xs ih =>
    simp only [updateFirst]
    split
    · simp [List.countP_cons, hf]
    · simp [List.countP_cons, ih]

theorem updateFirst_map {p : α → Bool} {f : α → α} (g : α → β) (l : List α)
    (hf : ∀ x, g (f x) = g x) :
    (updateFirst p f l).map g = l.map g := by
  induction l with
  | nil => rfl
  | cons x xs ih =>
    simp only [updateFirst]
    split
    · simp [hf]
    · simp [ih]

theorem updateFirst_length {p : α → Bool} {f : α → α} :
    ∀ l : List α, (updateFirst p f l).length = l.length
  | [] => rfl
  | x :: xs => by
    simp only [updateFirst]
    split <;> simp [updateFirst_length xs]

/-- The element found by `find?` together with its position: `updateFirst`
acts as `List.set` at that position, and everything before it fails the
predicate. -/
theorem updateFirst_eq_set {p : α → Bool} {f : α → α} :
    ∀ {l : List α} {x : α}, l.find? p = some x →
      ∃ i, ∃ hi : i < l.length, l[i] = x ∧
        (∀ j (hj : j < l.length), j < i → p l[j] = false) ∧
        updateFirst p f l = l.set i (f x)
  | [], x, h => by simp at h
  | a :: t, x, h => by
    by_cases ha : p a
    · rw [List.find?_cons_of_pos _ ha] at h
      cases h
      exact ⟨0, by simp, rfl, fun j hj hj0 => absurd hj0 (by omega),
        by simp [updateFirst, ha]⟩
    · rw [List.find?_cons_of_neg _ ha] at h
      obtain ⟨i, hi, hget, hpre, hset⟩ := @updateFirst_eq_set _ p f t x h
      refine ⟨i + 1, by simpa using hi, hget, ?_, by simp [updateFirst, ha, hset]⟩
      intro j hj hlt
      match j with
      | 0 => simpa using ha
      | j' + 1 =>
        have hj' : j' < t.length := by simpa using hj
        simpa using hpre j' hj' (by omega)

/-- A list whose prefix fails the predicate finds its first hit there. -/
theorem find?_eq_getElem {p : α → Bool} {l : List α} {n : Nat}
    (hn : n < l.length)
    (hfirst : ∀ j (hj : j < l.length), j < n → p l[j] = false)
    (hp : p l[n] = true) : l.find? p = some l[n] := by
  induction l generalizing n with
  | nil => simp at hn
  | cons a t ih =>
    match n with
    | 0 => rw [List.find?_cons_of_pos _ (by simpa using hp)]; simp
    | n' + 1 =>
      have ha : p a = false := by simpa using hfirst 0 (by simp) (by omega)
      rw [List.find?_cons_of_neg _ (by simp [ha])]
      have hn' : n' < t.length := by simpa using hn
      have := ih hn' (fun j hj hlt => by
        simpa using hfirst (j + 1) (by simpa using hj) (by omega))
        (by simpa using hp)
      simpa using this

/-- Following the first `p`-hit through an update that leaves `p`
invariant. -/
theorem find?_updateFirst_self {p : α → Bool} {f : α → α} :
    ∀ {l : List α} {x : α}, l.find? p = some x → (∀ y, p (f y) = p y) →
      (updateFirst p f l).find? p = some (f x)
  | [], x, h, _ => by simp at h
  | a :: t, x, h, hp => by
    by_cases ha : p a
    · rw [List.find?_cons_of_pos _ ha] at h
      cases h
      have hfa : p (f a) = true := by rw [hp]; exact ha
      simp only [updateFirst, if_pos ha]
      rw [List.find?_cons_of_pos _ hfa]
    · rw [List.find?_cons_of_neg _ ha] at h
      simp only [updateFirst, if_neg ha]
      rw [List.find?_cons_of_neg _ ha]
      exact find?_updateFirst_self h hp

/-- A `find?` result that does not satisfy the update predicate survives
an update that leaves its own predicate invariant. -/
theorem find?_updateFirst_other {p q : α → Bool} {f : α → α} :
    ∀ {l : List α} {x : α}, l.find? q = some x → p x = false →
      (∀ y, q (f y) = q y) → (updateFirst p f l).find? q = some x
  | [], x, h, _, _ => by simp at h
  | a :: t, x, h, hpx, hq => by
    by_cases ha : q a
    · rw [List.find?_cons_of_pos _ ha] at h
      cases h
      have hpa : ¬ p a := by simp [hpx]
      simp [updateFirst, hpa, List.find?_cons_of_pos _ ha]
    · rw [List.find?_cons_of_neg _ ha] at h
      by_cases hpa : p a
      · simp only [updateFirst, if_pos hpa]
        rw [List.find?_cons_of_neg _ (by simpa [hq] using ha)]
        exact h
      · simp only [updateFirst, if_neg hpa]
        rw [List.find?_cons_of_neg _ ha]
        exact find?_updateFirst_other h hpx hq

theorem countP_eq_zero_of_find?_none {p : α → Bool} {l : List α}
    (h : l.find? p = none) : l.countP p = 0 := by
  rw [List.countP_eq_zero]
  intro a ha
  exact List.find?_eq_none.mp h a ha

/-- Writing the element at a known offset: a mid-list `set`. -/
theorem set_append_len (l1 : List α) (y x : α) (l2 : List α) :
    (l1 ++ y :: l2).set l1.length x = l1 ++ x :: l2 := by
  induction l1 with
  | nil => rfl
  | cons a t ih => simp [List.set, ih]

/-- Rewriting a position to its own value is the identity. -/
theorem set_self_getElem (l : List α) (n : Nat) (hn : n < l.length) :
    l.set n l[n] = l := by
  apply List.ext_getElem (by simp)
  intro j h1 h2
  rw [List.getElem_set]
  split
  · next h => subst h; rfl
  · rfl

/-- Setting an element with an unchanged `id` leaves the id projection of
the option table unchanged. -/
theorem map_id_set (l : List PollOptionS) (n : Nat) (hn : n < l.length)
    (o' : PollOptionS) (hid : o'.id = l[n].id) :
    (l.set n o').map (fun o => o.id) = l.map (fun o => o.id) := by
  rw [List.map_set]
  have hn' : n < (l.map (fun o => o.id)).length := by simpa using hn
  have hv : (l.map (fun o => o.id))[n] = l[n].id := List.getElem_map _
  calc (l.map (fun o => o.id)).set n o'.id
      = (l.map (fun o => o.id)).set n (l.map (fun o => o.id))[n] := by rw [hv, hid]
    _ = l.map (fun o => o.id) := set_self_getElem _ n hn'

/-- Distinct positions of an id-unique option table carry distinct ids. -/
theorem nodup_id_ne {l : List PollOptionS}
    (hnd : (l.map (fun o => o.id)).Nodup) {a b : Nat}
    (ha : a < l.length) (hb : b < l.length) (hne : a ≠ b) :
    l[a].id ≠ l[b].id := by
  intro hcontra
  apply hne
  have ha2 : a < (l.map (fun o => o.id)).length := by simpa using ha
  have hb2 : b < (l.map (fun o => o.id)).length := by simpa using hb
  have h1 : (l.map (fun o => o.id))[a] = (l.map (fun o => o.id))[b] := by
    rw [List.getElem_map, List.getElem_map, hcontra]
  exact hnd.getElem_inj_iff.mp h1

/-- `updateFirst` rewrites exactly the first hit when it is known by
position. -/
theorem updateFirst_eq_set_of_first {p : α → Bool} {f : α → α} :
    ∀ (l : List α) (n : Nat) (hn : n < l.length),
      (∀ j (hj : j < l.length), j < n → p l[j] = false) → p l[n] = true →
      updateFirst p f l = l.set n (f l[n])
  | [], n, hn, _, _ => by simp at hn
  | a :: t, 0, hn, _, hp => by
    simp only [updateFirst, if_pos (by simpa using hp)]
    rfl
  | a :: t, n + 1, hn, hpre, hp => by
    have ha : p a = false := by simpa using hpre 0 (by simp) (by omega)
    have hn' : n < t.length := by simp only [List.length_cons] at hn; omega
    have hpre' : ∀ j (hj : j < t.length), j < n → p t[j] = false := by
      intro j hj hlt
      have := hpre (j + 1) (by simp only [List.length_cons]; omega) (by omega)
      simpa using this
    have hp' : p t[n] = true := by simpa using hp
    have ht := @updateFirst_eq_set_of_first _ p f t n hn' hpre' hp'
    rw [show updateFirst p f (a :: t) = a :: updateFirst p f t from by
      simp [updateFirst, ha]]
    simp [ht]

/-- Counting through a single-position rewrite: a balance equation that
avoids truncated subtraction. -/
theorem countP_set_balance {l : List α} {n : Nat} (hn : n < l.length)
    (a : α) (p : α → Bool) :
    (l.set n a).countP p + (if p l[n] then 1 else 0) =
      l.countP p + (if p a then 1 else 0) := by
  induction l generalizing n with
  | nil => simp at hn
  | cons x t ih =>
    match n with
    | 0 => simp only [List.set, List.countP_cons, List.getElem_cons_zero]; omega
    | n' + 1 =>
      have hn' : n' < t.length := by simpa using hn
      have := ih hn'
      simp only [List.set, List.countP_cons, List.getElem_cons_succ]
      omega

theorem nat_beq_comm (a b : Nat) : (a == b) = (b == a) := by
  by_cases h : a = b
  · subst h; rfl
  · rw [beq_eq_false_iff_ne.mpr h, beq_eq_false_iff_ne.mpr (Ne.symm h)]

/-- Summing a one-hot indicator over the option table counts the matching
rows. -/
theorem sum_map_indicator (j : Nat) (l : List PollOptionS) :
    (l.map (fun o => if j == o.id then (1 : Int) else 0)).sum =
      (l.countP (fun o => j == o.id) : Int) := by
  induction l with
  | nil => simp
  | cons o t ih =>
    simp only [List.map_cons, List.sum_cons, List.countP_cons, ih]
    push_cast
    split <;> omega

/-- With unique ids, each vote matches exactly one option row. -/
theorem countP_id_one {l : List PollOptionS}
    (hnd : (l.map (fun o => o.id)).Nodup) {j : Nat}
    (hj : j ∈ l.map (fun o => o.id)) :
    l.countP (fun o => j == o.id) = 1 := by
  have h1 : l.countP (fun o => j == o.id) =
      (l.map (fun o => o.id)).countP (fun x => j == x) := by
    rw [List.countP_map]; rfl
  have h2 : (l.map (fun o => o.id)).countP (fun x => j == x) =
      (l.map (fun o => o.id)).countP (fun x => x == j) :=
    List.countP_congr (fun x _ => by rw [nat_beq_comm])
  rw [h1, h2, ← List.count_eq_countP]
  exact List.count_eq_one_of_mem hnd hj

/-- The double-counting identity: when every vote row matches exactly one
option, the per-option counts sum to the number of vote rows. -/
theorem sum_counts (options : List PollOptionS) :
    ∀ votes : List VoteS,
      (∀ v ∈ votes, options.countP (fun o => v.option_id == o.id) = 1) →
      (options.map (fun o => (countVotesFor votes o.id : Int))).sum =
        (votes.length : Int)
  | [], _ => by
    have : ∀ o ∈ options, (countVotesFor ([] : List VoteS) o.id : Int) = 0 := by
      intro o _; simp [countVotesFor]
    rw [List.map_congr_left (fun o ho => this o ho)]
    simp
  | v :: vs, h => by
    have ih := sum_counts options vs (fun w hw => h w (List.mem_cons_of_mem v hw))
    have hv := h v (List.mem_cons_self v vs)
    have hstep : ∀ o : PollOptionS, (countVotesFor (v :: vs) o.id : Int) =
        (countVotesFor vs o.id : Int) +
          (if v.option_id == o.id then (1 : Int) else 0) := by
      intro o
      unfold countVotesFor
      rw [List.countP_cons]
      push_cast
      split <;> omega
    calc (options.map (fun o => (countVotesFor (v :: vs) o.id : Int))).sum
        = (options.map (fun o => (countVotesFor vs o.id : Int) +
            (if v.option_id == o.id then (1 : Int) else 0))).sum := by
          rw [List.map_congr_left (fun o _ => hstep o)]
      _ = (options.map (fun o => (countVotesFor vs o.id : Int))).sum +
          (options.map (fun o => if v.option_id == o.id then (1 : Int) else 0)).sum :=
          List.sum_map_add
      _ = (vs.length : Int) +
          (options.countP (fun o => v.option_id == o.id) : Int) := by
          rw [ih, sum_map_indicator]
      _ = ((v :: vs).length : Int) := by
          rw [hv]; simp only [List.length_cons]; push_cast; omega

/-! ## Control-flow case analysis of `PollService.vote` -/

/-- Complete case analysis of `vote`: every call lands in exactly one of
the five outcomes, with the database effect of each branch spelled out. -/
theorem vote_spec (st : ServiceState) (oid : Nat) (sid : List Nat) (now : Int) :
    (is_active st.poll now = false ∧ vote st oid sid now = (.inactive, st)) ∨
    (is_active st.poll now = true ∧
      st.options.find? (optMatch st.poll.id oid) = none ∧
      vote st oid sid now = (.invalidOption, st)) ∨
    (∃ opt ex, is_active st.poll now = true ∧
      st.options.find? (optMatch st.poll.id oid) = some opt ∧
      st.votes.find? (voteMatch st.poll.id (voterHashOf sid st.poll.id)) = some ex ∧
      st.poll.allow_vote_change = false ∧
      vote st oid sid now = (.alreadyVoted, st)) ∨
    (∃ opt ex, is_active st.poll now = true ∧
      st.options.find? (optMatch st.poll.id oid) = some opt ∧
      st.votes.find? (voteMatch st.poll.id (voterHashOf sid st.poll.id)) = some ex ∧
      st.poll.allow_vote_change = true ∧
      (vote st oid sid now).1 = .changed ∧
      (vote st oid sid now).2.poll = st.poll ∧
      (vote st oid sid now).2.votes =
        updateFirst (voteMatch st.poll.id (voterHashOf sid st.poll.id))
          (fun v => { v with option_id := oid }) st.votes ∧
      ((∃ oldO, st.options.find? (fun o => o.id == ex.option_id) = some oldO ∧
          (vote st oid sid now).2.options =
            updateFirst (optMatch st.poll.id oid)
              (fun o => { o with vote_count := o.vote_count + 1 })
              (updateFirst (fun o => o.id == ex.option_id)
                (fun o => { o with vote_count := max 0 (o.vote_count - 1) })
                st.options)) ∨
        (st.options.find? (fun o => o.id == ex.option_id) = none ∧
          (vote st oid sid now).2.options =
            updateFirst (optMatch st.poll.id oid)
              (fun o => { o with vote_count := o.vote_count + 1 }) st.options))) ∨
    (∃ opt, is_active st.poll now = true ∧
      st.options.find? (optMatch st.poll.id oid) = some opt ∧
      st.votes.find? (voteMatch st.poll.id (voterHashOf sid st.poll.id)) = none ∧
      (vote st oid sid now).1 = .recorded ∧
      (vote st oid sid now).2.poll =
        { st.poll with total_votes := st.poll.total_votes + 1 } ∧
      (vote st oid sid now).2.options =
        updateFirst (optMatch st.poll.id oid)
          (fun o => { o with vote_count := o.vote_count + 1 }) st.options ∧
      (vote st oid sid now).2.votes =
        st.votes ++ [⟨st.poll.id, voterHashOf sid st.poll.id, oid⟩]) := by
  cases hA : is_active st.poll now with
  | false => exact Or.inl ⟨rfl, by simp [vote, hA]⟩
  | true =>
    cases hO : st.options.find? (optMatch st.poll.id oid) with
    | none => exact Or.inr (Or.inl ⟨rfl, rfl, by simp [vote, hA, hO]⟩)
    | some opt =>
      cases hV : st.votes.find? (voteMatch st.poll.id (voterHashOf sid st.poll.id)) with
      | none =>
        refine Or.inr (Or.inr (Or.inr (Or.inr ⟨opt, rfl, rfl, rfl, ?_, ?_, ?_, ?_⟩)))
          <;> simp [vote, hA, hO, hV]
      | some ex =>
        cases hC : st.poll.allow_vote_change with
        | false =>
          exact Or.inr (Or.inr (Or.inl ⟨opt, ex, rfl, rfl, rfl, rfl,
            by simp [vote, hA, hO, hV, hC]⟩))
        | true =>
          refine Or.inr (Or.inr (Or.inr (Or.inl ⟨opt, ex, rfl, rfl, rfl, rfl,
            ?_, ?_, ?_, ?_⟩)))
          · cases hD : st.options.find? (fun o => o.id == ex.option_id)
              <;> simp [vote, hA, hO, hV, hC, hD]
          · cases hD : st.options.find? (fun o => o.id == ex.option_id)
              <;> simp [vote, hA, hO, hV, hC, hD]
          · cases hD : st.options.find? (fun o => o.id == ex.option_id)
              <;> simp [vote, hA, hO, hV, hC, hD]
          · cases hD : st.options.find? (fun o => o.id == ex.option_id) with
            | some oldO =>
              exact Or.inl ⟨oldO, rfl, by simp [vote, hA, hO, hV, hC, hD]⟩
            | none => exact Or.inr ⟨rfl, by simp [vote, hA, hO, hV, hC, hD]⟩

/-! ## C1: one vote row per (poll, voter hash) pair -/

theorem countKey_vote_le (st : ServiceState) (oid : Nat) (sid : List Nat)
    (now : Int) (pid h : List Nat) (hle : countKey st.votes pid h ≤ 1) :
    countKey (vote st oid sid now).2.votes pid h ≤ 1 := by
  rcases vote_spec st oid sid now with ⟨_, heq⟩ | ⟨_, _, heq⟩
    | ⟨_, _, _, _, _, _, heq⟩
    | ⟨opt, ex, _, _, _, _, _, _, hvotes, _⟩
    | ⟨opt, _, _, hV, _, _, _, hvotes⟩
  · rw [heq]; exact hle
  · rw [heq]; exact hle
  · rw [heq]; exact hle
  · rw [hvotes]
    unfold countKey at hle ⊢
    have hcp : (updateFirst (voteMatch st.poll.id (voterHashOf sid st.poll.id))
        (fun v => { v with option_id := oid }) st.votes).countP (voteMatch pid h) =
        st.votes.countP (voteMatch pid h) :=
      updateFirst_countP st.votes (fun v => rfl)
    rw [hcp]
    exact hle
  · rw [hvotes]
    unfold countKey at hle ⊢
    rw [List.countP_append]
    have hsing : List.countP (voteMatch pid h)
        [(⟨st.poll.id, voterHashOf sid st.poll.id, oid⟩ : VoteS)] ≤ 1 := by
      simp only [List.countP_cons, List.countP_nil, Nat.zero_add]
      split <;> simp
    by_cases hm : voteMatch pid h ⟨st.poll.id, voterHashOf sid st.poll.id, oid⟩ = true
    · have hpair : st.poll.id = pid ∧ voterHashOf sid st.poll.id = h := by
        simpa [voteMatch, Bool.and_eq_true, beq_iff_eq] using hm
      have hzero : st.votes.countP (voteMatch pid h) = 0 := by
        rw [← hpair.1, ← hpair.2]
        exact countP_eq_zero_of_find?_none hV
      omega
    · simp only [Bool.not_eq_true] at hm
      have hz : List.countP (voteMatch pid h)
          [(⟨st.poll.id, voterHashOf sid st.poll.id, oid⟩ : VoteS)] = 0 := by
        simp [List.countP_cons, hm]
      omega

theorem reach_countKey (s0 st : ServiceState) (h0 : s0.votes = [])
    (hr : ReachFrom s0 st) : ∀ pid h, countKey st.votes pid h ≤ 1 := by
  induction hr with
  | refl => intro pid h; simp [countKey, h0]
  | step st' oid sid now hprev ih =>
    intro pid h
    exact countKey_vote_le st' oid sid now pid h (ih pid h)

/-- Claim C1: in every state reachable by any sequence of `cast_vote`
operations from a vote-free start, each `(poll_id, voter_token_hash)`
pair has at most one `Vote` row; a first vote appends exactly one new
row, and a vote-change only reassigns `option_id`, preserving the key of
every row and inserting nothing. -/
theorem C1_vote_row_uniqueness :
    (∀ s0 st, s0.votes = [] → ReachFrom s0 st →
      ∀ pid h, countKey st.votes pid h ≤ 1) ∧
    (∀ st oid sid now, (vote st oid sid now).1 = .recorded →
      (vote st oid sid now).2.votes =
        st.votes ++ [⟨st.poll.id, voterHashOf sid st.poll.id, oid⟩]) ∧
    (∀ st oid sid now, (vote st oid sid now).1 = .changed →
      (vote st oid sid now).2.votes.map voteKey = st.votes.map voteKey) := by
  refine ⟨fun s0 st h0 hr => reach_countKey s0 st h0 hr, ?_, ?_⟩
  · intro st oid sid now hres
    rcases vote_spec st oid sid now with ⟨_, heq⟩ | ⟨_, _, heq⟩
      | ⟨_, _, _, _, _, _, heq⟩
      | ⟨_, _, _, _, _, _, hres', _, _⟩
      | ⟨_, _, _, _, _, _, _, hvotes⟩
    · rw [heq] at hres; cases hres
    · rw [heq] at hres; cases hres
    · rw [heq] at hres; cases hres
    · rw [hres'] at hres; cases hres
    · exact hvotes
  · intro st oid sid now hres
    rcases vote_spec st oid sid now with ⟨_, heq⟩ | ⟨_, _, heq⟩
      | ⟨_, _, _, _, _, _, heq⟩
      | ⟨_, _, _, _, _, _, _, _, hvotes, _⟩
      | ⟨_, _, _, _, hres', _, _, _⟩
    · rw [heq] at hres; cases hres
    · rw [heq] at hres; cases hres
    · rw [heq] at hres; cases hres
    · rw [hvotes]
      exact updateFirst_map voteKey st.votes (fun v => rfl)
    · rw [hres'] at hres; cases hres

/-- Witness for C1 at a concrete one-step reachable state. -/
theorem C1_vote_row_uniqueness_witness :
    countKey (vote ⟨⟨[112], false, none, false, 0⟩, [⟨1, [112], 0⟩], []⟩
      1 [5] 0).2.votes [112] (voterHashOf [5] [112]) ≤ 1 :=
  C1_vote_row_uniqueness.1 _ _ rfl
    (ReachFrom.step _ _ 1 [5] 0 (ReachFrom.refl _)) [112] (voterHashOf [5] [112])

/-! ## C4: rejected repeat vote leaves the state untouched -/

/-- Claim C4: on an active poll with vote-change disallowed, a voter who
already has a vote row is rejected with the already-voted outcome and the
state — vote rows, counters and total — is returned exactly as it was. -/
theorem C4_already_voted_rejection (st : ServiceState) (oid : Nat)
    (sid : List Nat) (now : Int) (opt : PollOptionS) (ex : VoteS)
    (hA : is_active st.poll now = true)
    (hO : st.options.find? (optMatch st.poll.id oid) = some opt)
    (hV : st.votes.find? (voteMatch st.poll.id (voterHashOf sid st.poll.id)) = some ex)
    (hC : st.poll.allow_vote_change = false) :
    vote st oid sid now = (.alreadyVoted, st) := by
  simp [vote, hA, hO, hV, hC]

/-- Witness for C4 on a concrete poll with an existing vote. -/
theorem C4_already_voted_rejection_witness :
    vote ⟨⟨[112], false, none, false, 1⟩, [⟨1, [112], 1⟩],
        [⟨[112], voterHashOf [5] [112], 1⟩]⟩ 1 [5] 0 =
      (.alreadyVoted, ⟨⟨[112], false, none, false, 1⟩, [⟨1, [112], 1⟩],
        [⟨[112], voterHashOf [5] [112], 1⟩]⟩) :=
  C4_already_voted_rejection _ 1 [5] 0 ⟨1, [112], 1⟩
    ⟨[112], voterHashOf [5] [112], 1⟩ (by decide) (by decide)
    (List.find?_cons_of_pos _ (by simp [voteMatch])) rfl

/-! ## C2: the poll total always equals the sum of the option counters -/

/-- One `vote` call preserves the counter bookkeeping invariant. -/
theorem counts_vote (st : ServiceState) (oid : Nat) (sid : List Nat)
    (now : Int) (hinv : CountsInv st) : CountsInv (vote st oid sid now).2 := by
  obtain ⟨hnd, hcnt, hcov, htot⟩ := hinv
  rcases vote_spec st oid sid now with ⟨_, heq⟩ | ⟨_, _, heq⟩
    | ⟨_, _, _, _, _, _, heq⟩
    | ⟨opt, ex, hA, hO, hV, hC, hres, hpoll, hvotes, hsub⟩
    | ⟨opt, hA, hO, hV, hres, hpoll, hopts, hvotes⟩
  · rw [heq]; exact ⟨hnd, hcnt, hcov, htot⟩
  · rw [heq]; exact ⟨hnd, hcnt, hcov, htot⟩
  · rw [heq]; exact ⟨hnd, hcnt, hcov, htot⟩
  · -- vote-change branch
    have hoptid : opt.id = oid ∧ opt.poll_id = st.poll.id := by
      have := List.find?_some hO
      simpa [optMatch, Bool.and_eq_true, beq_iff_eq] using this
    have hexmem : ex ∈ st.votes := List.mem_of_find?_eq_some hV
    rcases hsub with ⟨oldO, hOld, hopts⟩ | ⟨hnone, -⟩
    · have holdid : oldO.id = ex.option_id := by
        simpa [beq_iff_eq] using List.find?_some hOld
      obtain ⟨i, hi, hgeti, hprei, hseti⟩ := @updateFirst_eq_set _
        (fun o => o.id == ex.option_id)
        (fun o => { o with vote_count := max 0 (o.vote_count - 1) })
        st.options oldO hOld
      obtain ⟨n, hn, hgetn, -, hsetn⟩ := @updateFirst_eq_set _
        (voteMatch st.poll.id (voterHashOf sid st.poll.id))
        (fun v => { v with option_id := oid }) st.votes ex hV
      rw [hsetn] at hvotes
      rw [hseti] at hopts
      by_cases hxe : ex.option_id = oid
      · -- the voter re-selects the very option already held: the
        -- decrement is immediately compensated by the increment
        obtain ⟨k0, hk0, hgetk0, hprek0, -⟩ := @updateFirst_eq_set _
          (optMatch st.poll.id oid)
          (fun o => { o with vote_count := o.vote_count + 1 }) st.options opt hO
        have hk0i : k0 = i := by
          have hk0m : k0 < (st.options.map (fun o => o.id)).length := by
            simpa using hk0
          have him : i < (st.options.map (fun o => o.id)).length := by
            simpa using hi
          have h1 : (st.options.map (fun o => o.id))[k0] =
              (st.options.map (fun o => o.id))[i] := by
            rw [List.getElem_map, List.getElem_map, hgetk0, hgeti, hoptid.1,
              holdid, hxe]
          exact hnd.getElem_inj_iff.mp h1
        subst hk0i
        have hoo : oldO = opt := by rw [← hgeti, ← hgetk0]
        have hexeq : ({ ex with option_id := oid } : VoteS) = ex := by
          rw [← hxe]
        have hvotes2 : (vote st oid sid now).2.votes = st.votes := by
          rw [hvotes, hexeq, ← hgetn, set_self_getElem _ n hn]
        have hlen1 : k0 < (st.options.set k0
            { oldO with vote_count := max 0 (oldO.vote_count - 1) }).length := by
          simpa using hk0
        have hfirst1 : ∀ j (hj : j < (st.options.set k0
            { oldO with vote_count := max 0 (oldO.vote_count - 1) }).length),
            j < k0 → optMatch st.poll.id oid (st.options.set k0
              { oldO with vote_count := max 0 (oldO.vote_count - 1) })[j] = false := by
          intro j hj hlt
          have hj' : j < st.options.length := by simpa using hj
          rw [List.getElem_set_of_ne (by omega) _ hj]
          exact hprek0 j hj' hlt
        have hval : (st.options.set k0
            { oldO with vote_count := max 0 (oldO.vote_count - 1) })[k0] =
            { oldO with vote_count := max 0 (oldO.vote_count - 1) } := by
          rw [List.getElem_set]; simp
        have hp1 : optMatch st.poll.id oid ((st.options.set k0
            { oldO with vote_count := max 0 (oldO.vote_count - 1) })[k0]) = true := by
          rw [hval]
          have := List.find?_some hO
          simpa [optMatch, hoo] using this
        have hopts2 : (vote st oid sid now).2.options = st.options.set k0
            { oldO with vote_count := max 0 (oldO.vote_count - 1) + 1 } := by
          rw [hopts, @updateFirst_eq_set_of_first _ (optMatch st.poll.id oid)
            (fun o => { o with vote_count := o.vote_count + 1 })
            (st.options.set k0 { oldO with vote_count := max 0 (oldO.vote_count - 1) })
            k0 hlen1 hfirst1 hp1, List.set_set, hval]
        have hids : ((vote st oid sid now).2.options).map (fun o => o.id) =
            st.options.map (fun o => o.id) := by
          rw [hopts2]
          exact map_id_set st.options k0 hk0
            { oldO with vote_count := max 0 (oldO.vote_count - 1) + 1 }
            (by rw [hgetk0, hoo])
        have hcge : 1 ≤ countVotesFor st.votes oldO.id := by
          have : 0 < st.votes.countP (fun v => v.option_id == oldO.id) := by
        -- the existing vote itself points at the old option
            rw [List.countP_pos_iff]
            exact ⟨ex, hexmem, by simp [holdid]⟩
          unfold countVotesFor
          omega
        refine ⟨by rw [hids]; exact hnd, ?_, ?_, ?_⟩
        · intro m hm
          simp only [hopts2, hvotes2] at hm ⊢
          have hm' : m < st.options.length := by simpa using hm
          rw [List.getElem_set]
          by_cases hmk : k0 = m
          · subst hmk
            simp only [if_pos rfl]
            have hbase := hcnt k0 hk0
            rw [hgetk0, ← hoo] at hbase
            show max 0 (oldO.vote_count - 1) + 1 =
              (countVotesFor st.votes oldO.id : Int)
            omega
          · simp only [if_neg hmk]
            exact hcnt m hm'
        · intro v hv
          simp only [hvotes2] at hv
          rw [hids]
          exact hcov v hv
        · rw [hpoll, hvotes2]
          exact htot
      · -- the voter switches to a different option
        have hdecopt : ((fun o => o.id == ex.option_id) opt) = false := by
          simp only
          exact beq_eq_false_iff_ne.mpr (by rw [hoptid.1]; exact fun h => hxe h.symm)
        have hfind2 : ((st.options.set i
            { oldO with vote_count := max 0 (oldO.vote_count - 1) }).find?
            (optMatch st.poll.id oid)) = some opt := by
          have := @find?_updateFirst_other _ (fun o => o.id == ex.option_id)
            (optMatch st.poll.id oid)
            (fun o => { o with vote_count := max 0 (o.vote_count - 1) })
            st.options opt hO hdecopt (fun y => rfl)
          rwa [hseti] at this
        obtain ⟨k, hk, hgetk, hprek, hsetk⟩ := @updateFirst_eq_set _
          (optMatch st.poll.id oid)
          (fun o => { o with vote_count := o.vote_count + 1 }) _ opt hfind2
        rw [hsetk] at hopts
        have hklen : k < st.options.length := by simpa using hk
        have hkne : k ≠ i := by
          intro hcontra
          subst hcontra
          have hvk : (st.options.set k
              { oldO with vote_count := max 0 (oldO.vote_count - 1) })[k] =
              { oldO with vote_count := max 0 (oldO.vote_count - 1) } := by
            rw [List.getElem_set]; simp
          rw [hvk] at hgetk
          have h2 : ({ oldO with vote_count := max 0 (oldO.vote_count - 1) } :
              PollOptionS).id = opt.id := congrArg PollOptionS.id hgetk
          have h3 : oldO.id = opt.id := h2
          rw [holdid, hoptid.1] at h3
          exact hxe h3
        have hoptk : st.options[k] = opt := by
          have := hgetk
          rwa [List.getElem_set_of_ne (Ne.symm hkne) _ hk] at this
        have hids : ((vote st oid sid now).2.options).map (fun o => o.id) =
            st.options.map (fun o => o.id) := by
          rw [hopts]
          rw [map_id_set _ k (by simpa using hk)
            { opt with vote_count := opt.vote_count + 1 }
            (by rw [hgetk])]
          exact map_id_set st.options i hi
            { oldO with vote_count := max 0 (oldO.vote_count - 1) }
            (by rw [hgeti])
        have hbal := fun (j : Nat) => countP_set_balance hn
          ({ ex with option_id := oid } : VoteS) (fun v => v.option_id == j)
        simp only [hgetn] at hbal
        refine ⟨by rw [hids]; exact hnd, ?_, ?_, ?_⟩
        · intro m hm
          simp only [hopts, hvotes] at hm ⊢
          have hm' : m < st.options.length := by simpa using hm
          rw [List.getElem_set]
          by_cases hmk : k = m
          · subst hmk
            simp only [if_pos rfl]
            have hbase := hcnt k hklen
            rw [hoptk] at hbase
            have hb := hbal opt.id
            have c1 : (ex.option_id == opt.id) = false :=
              beq_eq_false_iff_ne.mpr (by rw [hoptid.1]; exact hxe)
            have c2 : (({ ex with option_id := oid } : VoteS).option_id ==
                opt.id) = true := by simp [hoptid.1]
            rw [c1, c2] at hb
            simp only [Bool.false_eq_true, if_false, if_true] at hb
            show opt.vote_count + 1 = (countVotesFor
              (st.votes.set n { ex with option_id := oid }) opt.id : Int)
            unfold countVotesFor at hbase ⊢
            omega
          · simp only [if_neg hmk]
            rw [List.getElem_set]
            by_cases hmi : i = m
            · subst hmi
              simp only [if_pos rfl]
              have hbase := hcnt i hi
              rw [hgeti] at hbase
              have hb := hbal oldO.id
              have c1 : (ex.option_id == oldO.id) = true := by simp [holdid]
              have c2 : (({ ex with option_id := oid } : VoteS).option_id ==
                  oldO.id) = false := by
                simp only
                exact beq_eq_false_iff_ne.mpr
                  (by rw [holdid]; exact fun h => hxe h.symm)
              rw [c1, c2] at hb
              simp only [Bool.false_eq_true, if_false, if_true] at hb
              show max 0 (oldO.vote_count - 1) = (countVotesFor
                (st.votes.set n { ex with option_id := oid }) oldO.id : Int)
              unfold countVotesFor at hbase ⊢
              omega
            · simp only [if_neg hmi]
              have hbase := hcnt m hm'
              have hne1 : st.options[m].id ≠ oid := by
                have := nodup_id_ne hnd hm' hklen (fun h => hmk (h ▸ rfl))
                rw [hoptk, hoptid.1] at this
                exact this
              have hne2 : st.options[m].id ≠ ex.option_id := by
                have := nodup_id_ne hnd hm' hi (fun h => hmi (h ▸ rfl))
                rw [hgeti, holdid] at this
                exact this
              have hb := hbal (st.options[m].id)
              have c1 : (ex.option_id == st.options[m].id) = false :=
                beq_eq_false_iff_ne.mpr (fun h => hne2 h.symm)
              have c2 : (({ ex with option_id := oid } : VoteS).option_id ==
                  st.options[m].id) = false := by
                simp only
                exact beq_eq_false_iff_ne.mpr (fun h => hne1 h.symm)
              rw [c1, c2] at hb
              simp only [Bool.false_eq_true, if_false] at hb
              unfold countVotesFor at hbase ⊢
              omega
        · intro v hv
          simp only [hvotes] at hv
          rw [hids]
          rcases List.mem_or_eq_of_mem_set hv with hvin | hveq
          · exact hcov v hvin
          · rw [hveq]
            exact List.mem_map.mpr ⟨opt, List.mem_of_find?_eq_some hO, hoptid.1⟩
        · rw [hpoll]
          simp only [hvotes, List.length_set]
          exact htot
    · -- impossible: the stored vote's option always exists in the table
      exfalso
      obtain ⟨o, hom, hoid⟩ := List.mem_map.mp (hcov ex hexmem)
      have := List.find?_eq_none.mp hnone o hom
      simp [hoid] at this
  · -- new-vote branch
    have hoptid : opt.id = oid ∧ opt.poll_id = st.poll.id := by
      have := List.find?_some hO
      simpa [optMatch, Bool.and_eq_true, beq_iff_eq] using this
    obtain ⟨k, hk, hgetk, -, hsetk⟩ := @updateFirst_eq_set _
      (optMatch st.poll.id oid)
      (fun o => { o with vote_count := o.vote_count + 1 }) st.options opt hO
    rw [hsetk] at hopts
    have hids : ((vote st oid sid now).2.options).map (fun o => o.id) =
        st.options.map (fun o => o.id) := by
      rw [hopts]
      exact map_id_set st.options k hk
        { opt with vote_count := opt.vote_count + 1 } (by rw [hgetk])
    have happ : ∀ j : Nat, countVotesFor (st.votes ++
        [⟨st.poll.id, voterHashOf sid st.poll.id, oid⟩]) j =
        countVotesFor st.votes j + (if oid == j then 1 else 0) := by
      intro j
      unfold countVotesFor
      rw [List.countP_append, List.countP_cons]
      simp
    refine ⟨by rw [hids]; exact hnd, ?_, ?_, ?_⟩
    · intro m hm
      simp only [hopts, hvotes] at hm ⊢
      have hm' : m < st.options.length := by simpa using hm
      rw [List.getElem_set]
      by_cases hmk : k = m
      · subst hmk
        simp only [if_pos rfl]
        have hbase := hcnt k hk
        rw [hgetk] at hbase
        show opt.vote_count + 1 = (countVotesFor (st.votes ++
          [⟨st.poll.id, voterHashOf sid st.poll.id, oid⟩]) opt.id : Int)
        rw [happ opt.id]
        rw [show (oid == opt.id) = true from by simp [hoptid.1]]
        simp only [if_true]
        push_cast
        omega
      · simp only [if_neg hmk]
        have hbase := hcnt m hm'
        have hne1 : st.options[m].id ≠ oid := by
          have := nodup_id_ne hnd hm' hk (fun h => hmk (h ▸ rfl))
          rw [hgetk, hoptid.1] at this
          exact this
        rw [happ]
        rw [show (oid == st.options[m].id) = false from
          beq_eq_false_iff_ne.mpr (fun h => hne1 h.symm)]
        simp only [Bool.false_eq_true, if_false]
        omega
    · intro v hv
      simp only [hvotes] at hv
      rw [hids]
      rcases List.mem_append.mp hv with hvin | hveq
      · exact hcov v hvin
      · have : v = ⟨st.poll.id, voterHashOf sid st.poll.id, oid⟩ := by
          simpa using hveq
        rw [this]
        exact List.mem_map.mpr ⟨opt, List.mem_of_find?_eq_some hO, hoptid.1⟩
    · rw [hpoll]
      simp only [hvotes, List.length_append, List.length_cons, List.length_nil]
      push_cast
      omega

/-- Claim C2: starting from a poll whose options all have `vote_count` 0,
whose `total_votes` is 0 and which has no vote rows yet (with unique
option ids, as the primary key guarantees), after any sequence of `vote`
calls the poll's `total_votes` equals the sum of `vote_count` over the
poll's options. -/
theorem C2_total_equals_option_sum (s0 st : ServiceState)
    (h0v : s0.votes = []) (h0t : s0.poll.total_votes = 0)
    (h0c : ∀ o ∈ s0.options, o.vote_count = 0)
    (h0n : (s0.options.map (fun o => o.id)).Nodup)
    (hr : ReachFrom s0 st) :
    st.poll.total_votes = (st.options.map (fun o => o.vote_count)).sum := by
  have hinit : CountsInv s0 := by
    refine ⟨h0n, ?_, ?_, ?_⟩
    · intro m hm
      rw [h0v]
      have hz : s0.options[m].vote_count = 0 := h0c _ (List.getElem_mem hm)
      simp [countVotesFor, hz]
    · intro v hv
      rw [h0v] at hv
      simp at hv
    · rw [h0v, h0t]; rfl
  have hinv : CountsInv st := by
    induction hr with
    | refl => exact hinit
    | step st' oid sid now hprev ih => exact counts_vote st' oid sid now ih
  obtain ⟨hnd, hcnt, hcov, htot⟩ := hinv
  have hone : ∀ v ∈ st.votes,
      st.options.countP (fun o => v.option_id == o.id) = 1 :=
    fun v hv => countP_id_one hnd (hcov v hv)
  have hsum := sum_counts st.options st.votes hone
  have hmap : st.options.map (fun o => o.vote_count) =
      st.options.map (fun o => (countVotesFor st.votes o.id : Int)) := by
    apply List.map_congr_left
    intro o ho
    obtain ⟨m, hm, hoeq⟩ := List.mem_iff_getElem.mp ho
    rw [← hoeq]
    exact hcnt m hm
  rw [htot, hmap, hsum]

/-- Witness for C2 on a concrete fresh two-option poll after one vote. -/
theorem C2_total_equals_option_sum_witness :
    (vote ⟨⟨[112], false, none, true, 0⟩, [⟨1, [112], 0⟩, ⟨2, [112], 0⟩], []⟩
        1 [5] 0).2.poll.total_votes =
      ((vote ⟨⟨[112], false, none, true, 0⟩, [⟨1, [112], 0⟩, ⟨2, [112], 0⟩], []⟩
        1 [5] 0).2.options.map (fun o => o.vote_count)).sum :=
  C2_total_equals_option_sum _ _ rfl rfl (by decide) (by decide)
    (ReachFrom.step _ _ 1 [5] 0 (ReachFrom.refl _))

/-! ## C3: vote change semantics -/

/-- Claim C3: on an active poll with vote-change allowed, for a voter with
an existing vote row (on an option different from the new one, both
present): the result is a change; the previous option's counter is
decremented with a floor at zero and so never becomes negative; the
existing vote row is reassigned to the new option; the new option's
counter is incremented by one; and the poll total is unchanged. -/
theorem C3_vote_change_semantics (st : ServiceState) (oid : Nat)
    (sid : List Nat) (now : Int) (opt oldOpt : PollOptionS) (ex : VoteS)
    (hA : is_active st.poll now = true)
    (hC : st.poll.allow_vote_change = true)
    (hO : st.options.find? (optMatch st.poll.id oid) = some opt)
    (hV : st.votes.find? (voteMatch st.poll.id (voterHashOf sid st.poll.id)) = some ex)
    (hOld : st.options.find? (fun o => o.id == ex.option_id) = some oldOpt)
    (hne : ex.option_id ≠ oid) :
    (vote st oid sid now).1 = .changed ∧
    (vote st oid sid now).2.options.find? (fun o => o.id == ex.option_id) =
      some { oldOpt with vote_count := max 0 (oldOpt.vote_count - 1) } ∧
    (0 : Int) ≤ max 0 (oldOpt.vote_count - 1) ∧
    (vote st oid sid now).2.options.find? (optMatch st.poll.id oid) =
      some { opt with vote_count := opt.vote_count + 1 } ∧
    (vote st oid sid now).2.poll.total_votes = st.poll.total_votes ∧
    (vote st oid sid now).2.votes.find?
        (voteMatch st.poll.id (voterHashOf sid st.poll.id)) =
      some { ex with option_id := oid } := by
  have hoptid : opt.id = oid := by
    have := List.find?_some hO
    simp only [optMatch, Bool.and_eq_true, beq_iff_eq] at this
    exact this.1
  have holdid : oldOpt.id = ex.option_id := by
    have := List.find?_some hOld
    simpa [beq_iff_eq] using this
  have heq : vote st oid sid now = (.changed,
      ⟨st.poll,
       updateFirst (optMatch st.poll.id oid)
         (fun o => { o with vote_count := o.vote_count + 1 })
         (updateFirst (fun o => o.id == ex.option_id)
           (fun o => { o with vote_count := max 0 (o.vote_count - 1) }) st.options),
       updateFirst (voteMatch st.poll.id (voterHashOf sid st.poll.id))
         (fun v => { v with option_id := oid }) st.votes⟩) := by
    simp [vote, hA, hO, hV, hC, hOld]
  rw [heq]
  refine ⟨rfl, ?_, le_max_left 0 _, ?_, rfl, ?_⟩
  · have h1 : (updateFirst (fun o => o.id == ex.option_id)
        (fun o => { o with vote_count := max 0 (o.vote_count - 1) })
        st.options).find? (fun o => o.id == ex.option_id) =
        some { oldOpt with vote_count := max 0 (oldOpt.vote_count - 1) } :=
      find?_updateFirst_self hOld (fun x => rfl)
    refine find?_updateFirst_other h1 ?_ (fun x => rfl)
    simp only [optMatch, Bool.and_eq_false_iff]
    left
    simp [holdid, hne]
  · have h1 : (updateFirst (fun o => o.id == ex.option_id)
        (fun o => { o with vote_count := max 0 (o.vote_count - 1) })
        st.options).find? (optMatch st.poll.id oid) = some opt := by
      refine find?_updateFirst_other hO ?_ (fun x => rfl)
      simp only [hoptid]
      exact beq_eq_false_iff_ne.mpr (Ne.symm hne)
    exact find?_updateFirst_self h1 (fun x => rfl)
  · exact find?_updateFirst_self hV (fun x => rfl)

/-- Witness for C3: a concrete voter changes from option 1 to option 2. -/
theorem C3_vote_change_semantics_witness :
    (vote ⟨⟨[112], false, none, true, 1⟩,
        [⟨1, [112], 1⟩, ⟨2, [112], 0⟩],
        [⟨[112], voterHashOf [5] [112], 1⟩]⟩ 2 [5] 0).1 = .changed :=
  (C3_vote_change_semantics _ 2 [5] 0 ⟨2, [112], 0⟩ ⟨1, [112], 1⟩
    ⟨[112], voterHashOf [5] [112], 1⟩ (by decide) rfl (by decide)
    (List.find?_cons_of_pos _ (by simp [voteMatch])) (by decide) (by decide)).1

/-! ## C5: inactive polls reject every vote -/

/-- Claim C5: a poll that is not active (closed, or past its expiry as
recomputed from the clock at access time) rejects every vote with the
inactive outcome and no state change; in particular an expires_at in the
past rejects regardless of the `is_closed` flag. -/
theorem C5_inactive_rejection :
    (∀ st oid sid now, is_active st.poll now = false →
      vote st oid sid now = (.inactive, st)) ∧
    (∀ st oid sid now e, st.poll.expires_at = some e → e < now →
      vote st oid sid now = (.inactive, st)) := by
  constructor
  · intro st oid sid now h
    simp [vote, h]
  · intro st oid sid now e he hlt
    have h : is_active st.poll now = false := by
      simp [is_active, is_expired, he, hlt]
    simp [vote, h]

/-- Witness for C5 on a concrete expired-but-open poll. -/
theorem C5_inactive_rejection_witness :
    vote ⟨⟨[112], false, some 3, true, 0⟩, [⟨1, [112], 0⟩], []⟩ 1 [5] 9 =
      (.inactive, ⟨⟨[112], false, some 3, true, 0⟩, [⟨1, [112], 0⟩], []⟩) :=
  C5_inactive_rejection.2 _ 1 [5] 9 3 rfl (by decide)

/-! ## Voter token derivation (`utils.generate_voter_token`)

Determinism and the structural separation properties of the token
derivation are proven below. Unconditional distinctness of the tokens of
two distinct poll ids is equivalent to SHA-256 taking distinct values on
the two distinct pre-hash messages, which for the validated 8–32
character id domain is SHA-256 collision-freeness there: it can be
neither proven nor refuted in this development. -/

theorem natToHexBytes_length : ∀ (w v : Nat), (natToHexBytes w v).length = w
  | 0, _ => rfl
  | w + 1, v => by simp [natToHexBytes, natToHexBytes_length w]

theorem hexChar_inj {a b : Nat} (ha : a < 16) (hb : b < 16)
    (h : hexChar a = hexChar b) : a = b := by
  unfold hexChar at h
  split at h <;> split at h <;> omega

theorem natToHexBytes_inj : ∀ (w : Nat) {v1 v2 : Nat}, v1 < 16 ^ w →
    v2 < 16 ^ w → natToHexBytes w v1 = natToHexBytes w v2 → v1 = v2
  | 0, v1, v2, h1, h2, _ => by
    simp only [pow_zero] at h1 h2
    omega
  | w + 1, v1, v2, h1, h2, h => by
    simp only [natToHexBytes] at h
    have hlen : (natToHexBytes w (v1 / 16)).length =
        (natToHexBytes w (v2 / 16)).length := by
      rw [natToHexBytes_length, natToHexBytes_length]
    obtain ⟨hpre, hlast⟩ := List.append_inj h hlen
    rw [pow_succ] at h1 h2
    have hd1 : v1 / 16 < 16 ^ w := (Nat.div_lt_iff_lt_mul (by decide)).mpr h1
    have hd2 : v2 / 16 < 16 ^ w := (Nat.div_lt_iff_lt_mul (by decide)).mpr h2
    have heq : v1 / 16 = v2 / 16 := natToHexBytes_inj w hd1 hd2 hpre
    have hm : v1 % 16 = v2 % 16 :=
      hexChar_inj (Nat.mod_lt _ (by decide)) (Nat.mod_lt _ (by decide))
        (by simpa using hlast)
    omega

/-- The SHA-256 digest value fits in 256 bits. -/
theorem sha256Nat_lt (m : List Nat) : sha256Nat m < 2 ^ 256 := by
  have hpow : (2 : Nat) ^ 256 =
      115792089237316195423570985008687907853269984665640564039457584007913129639936 := by
    norm_num
  simp only [sha256Nat, w32]
  generalize sha256state m = s
  have h1 : s.a % 4294967296 < 4294967296 := Nat.mod_lt _ (by decide)
  have h2 : s.b % 4294967296 < 4294967296 := Nat.mod_lt _ (by decide)
  have h3 : s.c % 4294967296 < 4294967296 := Nat.mod_lt _ (by decide)
  have h4 : s.d % 4294967296 < 4294967296 := Nat.mod_lt _ (by decide)
  have h5 : s.e % 4294967296 < 4294967296 := Nat.mod_lt _ (by decide)
  have h6 : s.f % 4294967296 < 4294967296 := Nat.mod_lt _ (by decide)
  have h7 : s.g % 4294967296 < 4294967296 := Nat.mod_lt _ (by decide)
  have h8 : s.h % 4294967296 < 4294967296 := Nat.mod_lt _ (by decide)
  rw [hpow]
  omega

/-- `generate_voter_token` is deterministic; for the same session,
distinct poll ids always produce distinct pre-hash messages, and the
derived tokens differ whenever SHA-256 takes distinct values on those
two messages — the hex rendering of the digest is injective on 256-bit
values. -/
theorem generate_voter_token_separation :
    (∀ s p, generate_voter_token s p = generate_voter_token s p) ∧
    (∀ (s p1 p2 : List Nat), p1 ≠ p2 →
      tokenMessage s p1 ≠ tokenMessage s p2 ∧
      (sha256Nat (tokenMessage s p1) ≠ sha256Nat (tokenMessage s p2) →
        generate_voter_token s p1 ≠ generate_voter_token s p2)) := by
  refine ⟨fun s p => rfl, fun s p1 p2 hne => ⟨?_, ?_⟩⟩
  · intro hc
    apply hne
    unfold tokenMessage at hc
    have h2 := List.append_cancel_left hc
    simpa using h2
  · intro hdig htok
    apply hdig
    unfold generate_voter_token sha256hex at htok
    have h16 : (16 : Nat) ^ 64 = 2 ^ 256 := by norm_num
    exact natToHexBytes_inj 64 (h16 ▸ sha256Nat_lt _) (h16 ▸ sha256Nat_lt _) htok

/-- The separation theorem is not vacuous: the pre-hash messages of two
concrete distinct poll ids differ. -/
theorem tokenMessage_ne_ex : tokenMessage [] [97] ≠ tokenMessage [] [98] :=
  (generate_voter_token_separation.2 [] [97] [98] (by decide)).1

/-! ## C9: poll id validation -/

/-- Counterexample to C9 as stated: eight valid characters followed by a
newline are accepted (Python's `$` matches just before a trailing
newline), although the string is not made exclusively of class
characters. -/
theorem C9_poll_id_validation_cex :
    is_valid_poll_id (List.replicate 8 97 ++ [10]) = true ∧
      ¬ pollIdCore (List.replicate 8 97 ++ [10]) := by
  decide

/-- Claim C9 (amended): the validator accepts exactly the strings of 8 to
32 characters from `[A-Za-z0-9_-]`, or such a string followed by one
final newline — the extra case that Python's `$` anchor admits. -/
theorem C9_poll_id_validation_amended (s : List Nat) :
    is_valid_poll_id s = true ↔
      (pollIdCore s ∨ ∃ t, s = t ++ [10] ∧ pollIdCore t) := by
  cases hs : s.isEmpty with
  | true =>
    have hnil : s = [] := by simpa using hs
    subst hnil
    constructor
    · intro h
      simp [is_valid_poll_id] at h
    · rintro (⟨h8, -⟩ | ⟨t, ht, -⟩)
      · simp at h8
      · have := congrArg List.length ht
        simp at this
  | false =>
    have hne : s ≠ [] := by simpa using hs
    simp only [is_valid_poll_id, hs, Bool.false_eq_true, if_false,
      Bool.or_eq_true, Bool.and_eq_true, decide_eq_true_eq,
      List.all_eq_true, beq_iff_eq, pollIdCore]
    constructor
    · rintro (⟨⟨h1, h2⟩, h3⟩ | ⟨⟨⟨h1, h2⟩, h3⟩, h4⟩)
      · exact Or.inl ⟨h1, h2, h3⟩
      · refine Or.inr ⟨s.dropLast, ?_, ?_, ?_, ?_⟩
        · have hlast : s.getLast hne = 10 := by
            have := List.getLast?_eq_getLast s hne
            rw [this] at h3
            exact Option.some.inj h3
          rw [← hlast]
          exact (List.dropLast_append_getLast hne).symm
        · have := List.length_dropLast s
          omega
        · have := List.length_dropLast s
          omega
        · exact h4
    · rintro (⟨h1, h2, h3⟩ | ⟨t, rfl, h1, h2, h3⟩)
      · exact Or.inl ⟨⟨h1, h2⟩, h3⟩
      · refine Or.inr ⟨⟨⟨?_, ?_⟩, ?_⟩, ?_⟩
        · simp only [List.length_append, List.length_cons, List.length_nil]
          omega
        · simp only [List.length_append, List.length_cons, List.length_nil]
          omega
        · simp
        · simpa using h3

/-- Witness for the amended C9 at a concrete accepted id. -/
theorem C9_poll_id_validation_amended_witness :
    is_valid_poll_id (List.replicate 8 97) = true ↔
      (pollIdCore (List.replicate 8 97) ∨
        ∃ t, List.replicate 8 97 = t ++ [10] ∧ pollIdCore t) :=
  C9_poll_id_validation_amended (List.replicate 8 97)

/-! ## C10: failed decryption of an encrypted question yields the empty
string -/

/-- Counterexample to C10 as stated: the claim quantifies over any secret
key under which decryption of the payload fails, but the empty-string key
is falsy in Python, so the guard `is_encrypted and _question_encrypted
and secret_key` of `get_question` fails and the stored plaintext question
column is returned instead of the empty string. Here the payload is the
single byte `"A"`, which no key can base64-decode, and the plaintext
column `"Q"` comes back. -/
theorem C10_get_question_plaintext_cex :
    ¬ ∀ (p : PollRecord) (k : List Nat) (e : DecError),
      p.is_encrypted = true → p.question_encrypted ≠ [] →
      decrypt k p.question_encrypted = .error e →
      get_question p (some k) = [] := by
  intro hclaim
  exact absurd
    (hclaim ⟨true, [65], [81]⟩ [] .decryptionFailed rfl (by decide) (by decide))
    (by decide)

/-- Claim C10 (amended): on an encrypted poll with a non-empty stored
payload and a non-empty (truthy) key under which decryption fails,
`get_question` returns the empty string — `decrypt_field` swallows the
error, so the plaintext fallback branch in `get_question` never runs and
the stored plaintext column is not returned. With a falsy key the guard
fails and the plaintext column is returned instead (see the
counterexample). -/
theorem C10_get_question_swallows_failure (p : PollRecord) (k : List Nat)
    (e : DecError) (henc : p.is_encrypted = true)
    (hne : p.question_encrypted ≠ []) (hk : k ≠ [])
    (hfail : decrypt k p.question_encrypted = .error e) :
    get_question p (some k) = [] := by
  have hq : p.question_encrypted.isEmpty = false := by
    cases hql : p.question_encrypted with
    | nil => exact absurd hql hne
    | cons a t => rfl
  have hkk : k.isEmpty = false := by
    cases hkl : k with
    | nil => exact absurd hkl hk
    | cons a t => rfl
  have h1 : (p.is_encrypted && !p.question_encrypted.isEmpty &&
      !k.isEmpty) = true := by
    rw [henc, hq, hkk]
    rfl
  unfold get_question
  show (if (p.is_encrypted && !p.question_encrypted.isEmpty &&
    !k.isEmpty) = true
    then decrypt_field k p.question_encrypted else p.question) = []
  rw [if_pos h1]
  unfold decrypt_field
  rw [if_neg hne, hfail]

/-- Witness for the amended C10: under a non-empty key, a malformed
one-byte payload fails to decrypt and the question comes back empty
rather than as the plaintext column. -/
theorem C10_get_question_swallows_failure_witness :
    get_question ⟨true, [65], [81]⟩ (some [107]) = [] :=
  C10_get_question_swallows_failure ⟨true, [65], [81]⟩ [107] .decryptionFailed
    rfl (by decide) (by decide) (by decide)

/-! ## C7 and C8: lengths and byte bounds of the GCM pipeline -/

theorem natToBytes_length : ∀ (w n : Nat), (natToBytes w n).length = w
  | 0, _ => rfl
  | w + 1, n => by simp [natToBytes, natToBytes_length w]

theorem natToBytes_lt : ∀ (w n : Nat), ∀ b ∈ natToBytes w n, b < 256
  | 0, _, b, hb => by simp [natToBytes] at hb
  | w + 1, n, b, hb => by
    simp only [natToBytes, List.mem_append, List.mem_singleton] at hb
    rcases hb with hb | hb
    · exact natToBytes_lt w (n / 256) b hb
    · subst hb; exact Nat.mod_lt _ (by decide)

theorem getD_lt {l : List Nat} (hl : ∀ b ∈ l, b < 256) (i : Nat) :
    l.getD i 0 < 256 := by
  rw [List.getD_eq_getElem?_getD]
  cases h : l[i]? with
  | none => simp
  | some b =>
    obtain ⟨hlt, heq⟩ := List.getElem?_eq_some.mp h
    simp only [Option.getD_some]
    exact hl b (heq ▸ List.getElem_mem hlt)

theorem sbox_lt (x : Nat) : sbox x < 256 :=
  Nat.mod_lt _ (by decide)

theorem xtime_lt (v : Nat) : xtime v < 256 := by
  unfold xtime
  split
  · exact Nat.xor_lt_two_pow (n := 8) (Nat.mod_lt _ (by decide)) (by decide)
  · have : v % 256 < 128 := by omega
    omega

theorem xor_byte_lt {a b : Nat} (ha : a < 256) (hb : b < 256) :
    a ^^^ b < 256 :=
  Nat.xor_lt_two_pow (n := 8) ha hb

theorem mixCol_lt (a b c d : Nat) (ha : a < 256) (hb : b < 256)
    (hc : c < 256) (hd : d < 256) : ∀ x ∈ mixCol a b c d, x < 256 := by
  intro x hx
  have h2a := xtime_lt a
  have h2b := xtime_lt b
  have h2c := xtime_lt c
  have h2d := xtime_lt d
  have h3a := xor_byte_lt h2a ha
  have h3b := xor_byte_lt h2b hb
  have h3c := xor_byte_lt h2c hc
  have h3d := xor_byte_lt h2d hd
  simp only [mixCol, List.mem_cons, List.mem_singleton,
    List.not_mem_nil, or_false] at hx
  rcases hx with rfl | rfl | rfl | rfl
  · exact xor_byte_lt (xor_byte_lt (xor_byte_lt h2a h3b) hc) hd
  · exact xor_byte_lt (xor_byte_lt (xor_byte_lt ha h2b) h3c) hd
  · exact xor_byte_lt (xor_byte_lt (xor_byte_lt ha hb) h2c) h3d
  · exact xor_byte_lt (xor_byte_lt (xor_byte_lt h3a hb) hc) h2d

theorem zipWith_xor_lt : ∀ {l1 l2 : List Nat}, (∀ b ∈ l1, b < 256) →
    (∀ b ∈ l2, b < 256) → ∀ b ∈ List.zipWith (· ^^^ ·) l1 l2, b < 256
  | [], _, _, _ => by simp
  | _ :: _, [], _, _ => by simp
  | a :: t1, c :: t2, h1, h2 => by
    intro b hb
    simp only [List.zipWith_cons_cons, List.mem_cons] at hb
    rcases hb with rfl | hb
    · exact xor_byte_lt (h1 a (by simp)) (h2 c (by simp))
    · exact zipWith_xor_lt (fun x hx => h1 x (by simp [hx]))
        (fun x hx => h2 x (by simp [hx])) b hb

theorem shiftRows_length (st : List Nat) : (shiftRows st).length = 16 := rfl

theorem shiftRows_lt {st : List Nat} (h : ∀ b ∈ st, b < 256) :
    ∀ b ∈ shiftRows st, b < 256 := by
  intro b hb
  simp only [shiftRows, List.mem_cons, List.mem_singleton,
    List.not_mem_nil, or_false] at hb
  rcases hb with rfl | rfl | rfl | rfl | rfl | rfl | rfl | rfl | rfl | rfl
    | rfl | rfl | rfl | rfl | rfl | rfl <;> exact getD_lt h _

theorem subBytes_lt (st : List Nat) : ∀ b ∈ subBytes st, b < 256 := by
  intro b hb
  obtain ⟨a, -, rfl⟩ := List.mem_map.mp hb
  exact sbox_lt a

theorem roundKey_length (ws : List Nat) (r : Nat) :
    (roundKey ws r).length = 16 := by
  simp [roundKey, natToBytes_length]

theorem roundKey_lt (ws : List Nat) (r : Nat) :
    ∀ b ∈ roundKey ws r, b < 256 := by
  intro b hb
  simp only [roundKey, List.mem_append] at hb
  rcases hb with ((hb | hb) | hb) | hb <;> exact natToBytes_lt _ _ b hb

theorem aesBlock_length (key block : List Nat) :
    (aesBlock key block).length = 16 := by
  unfold aesBlock addRoundKey
  rw [List.length_zipWith, shiftRows_length, roundKey_length]
  omega

theorem aesBlock_lt (key block : List Nat) :
    ∀ b ∈ aesBlock key block, b < 256 := by
  unfold aesBlock addRoundKey
  exact zipWith_xor_lt (shiftRows_lt (subBytes_lt _)) (roundKey_lt _ _)

theorem flatten_length_of_uniform {L : List (List Nat)}
    (h : ∀ b ∈ L, b.length = 16) : L.flatten.length = 16 * L.length := by
  induction L with
  | nil => simp
  | cons x t ih =>
    simp only [List.flatten_cons, List.length_append, List.length_cons]
    rw [h x (by simp), ih (fun b hb => h b (by simp [hb]))]
    ring

theorem keystream_length (key nonce : List Nat) (n : Nat) :
    (keystream key nonce n).length = 16 * n := by
  unfold keystream
  rw [flatten_length_of_uniform, List.length_map, List.length_range]
  intro b hb
  obtain ⟨j, -, rfl⟩ := List.mem_map.mp hb
  exact aesBlock_length _ _

theorem keystream_lt (key nonce : List Nat) (n : Nat) :
    ∀ b ∈ keystream key nonce n, b < 256 := by
  intro b hb
  unfold keystream at hb
  obtain ⟨blk, hblk, hbm⟩ := List.mem_flatten.mp hb
  obtain ⟨j, -, rfl⟩ := List.mem_map.mp hblk
  exact aesBlock_lt _ _ b hbm

theorem gcmCt_length (key nonce pt : List Nat) :
    (gcmCt key nonce pt).length = pt.length := by
  unfold gcmCt
  rw [List.length_zipWith, keystream_length]
  have : pt.length ≤ 16 * ((pt.length + 15) / 16) := by omega
  omega

theorem gcmCt_lt (key nonce pt : List Nat) (hp : ∀ b ∈ pt, b < 256) :
    ∀ b ∈ gcmCt key nonce pt, b < 256 := by
  unfold gcmCt
  exact zipWith_xor_lt hp (keystream_lt _ _ _)

theorem gcmTag_length (key nonce ct : List Nat) :
    (gcmTag key nonce ct).length = 16 := by
  unfold gcmTag
  rw [List.length_zipWith, aesBlock_length, natToBytes_length]
  omega

theorem gcmTag_lt (key nonce ct : List Nat) :
    ∀ b ∈ gcmTag key nonce ct, b < 256 := by
  unfold gcmTag
  exact zipWith_xor_lt (aesBlock_lt _ _) (natToBytes_lt _ _)

/-! ## Base64 transport lemmas -/

theorem b64val_b64char : ∀ v < 64, b64val (b64char v) = some v := by decide

theorem b64char_ne_61 : ∀ v < 64, b64char v ≠ 61 := by decide

theorem b64char_inj : ∀ a < 64, ∀ b < 64, b64char a = b64char b → a = b := by
  decide

/-- Decoding one full quad followed by more input. -/
theorem quad_decode (x y z : Nat) (hx : x < 256) (hy : y < 256)
    (hz : z < 256) {rest t : List Nat} (hrest : b64decode rest = .ok t) :
    b64decode (b64char (x / 4) :: b64char ((x % 4) * 16 + y / 16) ::
      b64char ((y % 16) * 4 + z / 64) :: b64char (z % 64) :: rest) =
      .ok (x :: y :: z :: t) := by
  have v1 : x / 4 < 64 := by omega
  have v2 : (x % 4) * 16 + y / 16 < 64 := by omega
  have v3 : (y % 16) * 4 + z / 64 < 64 := by omega
  have v4 : z % 64 < 64 := by omega
  have e1 : (x / 4) * 4 + ((x % 4) * 16 + y / 16) / 16 = x := by omega
  have e2 : (((x % 4) * 16 + y / 16) % 16) * 16 +
      ((y % 16) * 4 + z / 64) / 4 = y := by omega
  have e3 : (((y % 16) * 4 + z / 64) % 4) * 64 + z % 64 = z := by omega
  simp only [b64decode, b64val_b64char _ v1, b64val_b64char _ v2,
    b64val_b64char _ v3, b64val_b64char _ v4,
    if_neg (b64char_ne_61 _ v3), if_neg (b64char_ne_61 _ v4), hrest,
    e1, e2, e3]

/-- Decoding a final 2-byte quantum; the low `w` bits of the third
character are silently dropped, exactly as CPython drops them. -/
theorem quad2_decode (x y w : Nat) (hx : x < 256) (hy : y < 256)
    (hw : w < 4) :
    b64decode [b64char (x / 4), b64char ((x % 4) * 16 + y / 16),
      b64char ((y % 16) * 4 + w), 61] = .ok [x, y] := by
  have v1 : x / 4 < 64 := by omega
  have v2 : (x % 4) * 16 + y / 16 < 64 := by omega
  have v3 : (y % 16) * 4 + w < 64 := by omega
  have e1 : (x / 4) * 4 + ((x % 4) * 16 + y / 16) / 16 = x := by omega
  have e2 : (((x % 4) * 16 + y / 16) % 16) * 16 +
      ((y % 16) * 4 + w) / 4 = y := by omega
  simp only [b64decode, b64val_b64char _ v1, b64val_b64char _ v2,
    b64val_b64char _ v3, if_neg (b64char_ne_61 _ v3), e1, e2]
  simp

/-- Decoding a final 1-byte quantum. -/
theorem quad1_decode (x : Nat) (hx : x < 256) :
    b64decode [b64char (x / 4), b64char ((x % 4) * 16), 61, 61] =
      .ok [x] := by
  have v1 : x / 4 < 64 := by omega
  have v2 : (x % 4) * 16 < 64 := by omega
  have e1 : (x / 4) * 4 + ((x % 4) * 16) / 16 = x := by omega
  simp only [b64decode, b64val_b64char _ v1, b64val_b64char _ v2, e1]
  simp

/-- CPython round trip: decoding an encoded byte string recovers it. -/
theorem b64decode_b64encode : ∀ (l : List Nat), (∀ b ∈ l, b < 256) →
    b64decode (b64encode l) = .ok l
  | [], _ => rfl
  | [x], h => by
    simpa [b64encode] using quad1_decode x (h x (by simp))
  | [x, y], h => by
    simpa [b64encode] using
      quad2_decode x y 0 (h x (by simp)) (h y (by simp)) (by decide)
  | x :: y :: z :: rest, h => by
    have ih := b64decode_b64encode rest (fun b hb => h b (by simp [hb]))
    simpa [b64encode] using quad_decode x y z (h x (by simp))
      (h y (by simp)) (h z (by simp)) ih

/-- Decoding an aligned encoded prefix concatenated with more input. -/
theorem b64decode_encode_append : ∀ (l : List Nat) {r t : List Nat},
    (∀ b ∈ l, b < 256) → l.length % 3 = 0 → b64decode r = .ok t →
    b64decode (b64encode l ++ r) = .ok (l ++ t)
  | [], r, t, _, _, hr => by simpa using hr
  | [x], _, _, h, h3, _ => by simp at h3
  | [x, y], _, _, h, h3, _ => by simp at h3
  | x :: y :: z :: rest, r, t, h, h3, hr => by
    have h3' : rest.length % 3 = 0 := by
      simp only [List.length_cons] at h3; omega
    have ih := b64decode_encode_append rest
      (fun b hb => h b (by simp [hb])) h3' hr
    simpa [b64encode] using quad_decode x y z (h x (by simp))
      (h y (by simp)) (h z (by simp)) ih

theorem b64encode_append3 : ∀ (l r : List Nat), l.length % 3 = 0 →
    b64encode (l ++ r) = b64encode l ++ b64encode r
  | [], r, _ => rfl
  | [x], _, h => by simp at h
  | [x, y], _, h => by simp at h
  | x :: y :: z :: rest, r, h => by
    have h3 : rest.length % 3 = 0 := by
      simp only [List.length_cons] at h; omega
    show b64encode (x :: y :: z :: (rest ++ r)) = _
    simp only [b64encode]
    rw [b64encode_append3 rest r h3]
    simp

theorem b64encode_length3 : ∀ (l : List Nat), l.length % 3 = 0 →
    (b64encode l).length = 4 * (l.length / 3)
  | [], _ => rfl
  | [x], h => by simp at h
  | [x, y], h => by simp at h
  | x :: y :: z :: rest, h => by
    have h3 : rest.length % 3 = 0 := by
      simp only [List.length_cons] at h; omega
    simp only [b64encode, List.length_cons]
    rw [b64encode_length3 rest h3]
    omega

theorem b64encode_ne_nil : ∀ {l : List Nat}, l ≠ [] → b64encode l ≠ []
  | [], h, _ => h rfl
  | [x], _, h => by simp [b64encode] at h
  | [x, y], _, h => by simp [b64encode] at h
  | x :: y :: z :: rest, _, h => by simp [b64encode] at h

theorem set_append_right : ∀ (l1 l2 : List α) (k : Nat) (a : α),
    (l1 ++ l2).set (l1.length + k) a = l1 ++ l2.set k a
  | [], l2, k, a => by simp
  | x :: t, l2, k, a => by
    have harith : (x :: t).length + k = (t.length + k) + 1 := by
      simp only [List.length_cons]; omega
    rw [List.cons_append, harith, List.set_cons_succ,
      set_append_right t l2 k a, List.cons_append]

/-! ## Behaviour of `decrypt` on a structurally well-formed blob -/

theorem zipWith_xor_cancel : ∀ (p k : List Nat), p.length ≤ k.length →
    List.zipWith (· ^^^ ·) (List.zipWith (· ^^^ ·) p k) k = p
  | [], _, _ => by simp
  | x :: xs, [], h => by simp at h
  | x :: xs, c :: cs, h => by
    simp only [List.zipWith_cons_cons]
    rw [zipWith_xor_cancel xs cs (by simpa using h)]
    rw [Nat.xor_assoc, Nat.xor_self, Nat.xor_zero]

/-- A blob that decodes to `nonce ‖ ct ‖ tg` with a 12-byte nonce and a
16-byte trailing tag is split exactly there, and succeeds iff the
recomputed tag matches `tg`. -/
theorem decrypt_split (key nonce ct tg blob : List Nat)
    (hn : nonce.length = 12) (htg : tg.length = 16) (hblob : blob ≠ [])
    (hdec : b64decode blob = .ok (nonce ++ (ct ++ tg))) :
    decrypt key blob =
      if gcmTag key nonce ct = tg then
        .ok (List.zipWith (· ^^^ ·) ct
          (keystream key nonce ((ct.length + 15) / 16)))
      else .error .decryptionFailed := by
  unfold decrypt
  rw [if_neg hblob, hdec]
  have htake : (nonce ++ (ct ++ tg)).take 12 = nonce := by
    rw [← hn]; exact List.take_left nonce _
  have hdrop : (nonce ++ (ct ++ tg)).drop 12 = ct ++ tg := by
    rw [← hn]; exact List.drop_left nonce _
  simp only [htake, hdrop]
  have hlen2 : (ct ++ tg).length - 16 = ct.length := by
    rw [List.length_append, htg]; omega
  rw [hlen2]
  have htake2 : (ct ++ tg).take ct.length = ct := List.take_left ct tg
  have hdrop2 : (ct ++ tg).drop ct.length = tg := List.drop_left ct tg
  rw [htake2, hdrop2]

/-- Any blob decoding to a faithful `encrypt` payload decrypts back to the
plaintext. -/
theorem decrypt_blob_of_encrypt (key nonce pt blob : List Nat)
    (hn : nonce.length = 12) (hblob : blob ≠ [])
    (hdec : b64decode blob = .ok (nonce ++ (gcmCt key nonce pt ++
      gcmTag key nonce (gcmCt key nonce pt)))) :
    decrypt key blob = .ok pt := by
  rw [decrypt_split key nonce (gcmCt key nonce pt) _ blob hn
    (gcmTag_length _ _ _) hblob hdec, if_pos rfl]
  congr 1
  rw [gcmCt_length key nonce pt]
  unfold gcmCt
  apply zipWith_xor_cancel
  rw [keystream_length]
  omega

/-! ## C7: encryption round trip -/

/-- Claim C7: with the key derived from the same secret and salt,
decrypting an encrypted string returns it unchanged, for every plaintext
(the empty string included); empty plaintext short-circuits to the empty
blob without encrypting, and decrypting the empty blob returns the empty
string. -/
theorem C7_encryption_roundtrip (secret salt nonce pt : List Nat)
    (hn : nonce.length = 12) (hnb : ∀ b ∈ nonce, b < 256)
    (hpb : ∀ b ∈ pt, b < 256) :
    decrypt (derive_key secret salt)
      (encrypt (derive_key secret salt) nonce pt) = .ok pt ∧
    encrypt (derive_key secret salt) nonce [] = [] ∧
    decrypt (derive_key secret salt) [] = .ok [] := by
  refine ⟨?_, rfl, rfl⟩
  by_cases hpt : pt = []
  · subst hpt; rfl
  · have hdata : ∀ b ∈ nonce ++ (gcmCt (derive_key secret salt) nonce pt ++
        gcmTag (derive_key secret salt) nonce
          (gcmCt (derive_key secret salt) nonce pt)), b < 256 := by
      intro b hb
      rcases List.mem_append.mp hb with h | h
      · exact hnb b h
      · rcases List.mem_append.mp h with h | h
        · exact gcmCt_lt _ _ _ hpb b h
        · exact gcmTag_lt _ _ _ b h
    have henc : encrypt (derive_key secret salt) nonce pt =
        b64encode (nonce ++ (gcmCt (derive_key secret salt) nonce pt ++
          gcmTag (derive_key secret salt) nonce
            (gcmCt (derive_key secret salt) nonce pt))) := by
      unfold encrypt
      rw [if_neg hpt]
    rw [henc]
    apply decrypt_blob_of_encrypt _ _ _ _ hn
    · apply b64encode_ne_nil
      intro hcontra
      have := congrArg List.length hcontra
      simp [hn] at this
    · exact b64decode_b64encode _ hdata

/-- Witness for C7 at a concrete secret, salt, nonce and one-byte
plaintext. -/
theorem C7_encryption_roundtrip_witness :
    decrypt (derive_key [107] [115])
      (encrypt (derive_key [107] [115]) (List.replicate 12 0) [65]) =
      .ok [65] :=
  (C7_encryption_roundtrip [107] [115] (List.replicate 12 0) [65]
    (by decide) (by decide) (by decide)).1

/-! ## C8: tamper detection -/

theorem list_set_ne {l : List Nat} {i v : Nat} (hi : i < l.length)
    (hne : v ≠ l.getD i 0) : l.set i v ≠ l := by
  intro hcontra
  have h1 : (l.set i v).getD i 0 = v := by
    rw [List.getD_eq_getElem?_getD]
    simp [List.getElem?_set_self, hi]
  rw [hcontra] at h1
  exact hne h1.symm

/-- Claim C8 (amended): modifying any byte of the 16-byte authentication
tag inside the decoded blob makes `decrypt` fail with the decryption
error; at the base64 layer, however, a byte modification that does not
change the decoded data (an unused trailing bit) decrypts silently (see
the counterexample). -/
theorem C8_tag_tamper_rejected (key nonce pt : List Nat) (i v : Nat)
    (hn : nonce.length = 12) (hnb : ∀ b ∈ nonce, b < 256)
    (hpb : ∀ b ∈ pt, b < 256) (hi : i < 16) (hv : v < 256)
    (hne : v ≠ (gcmTag key nonce (gcmCt key nonce pt)).getD i 0) :
    decrypt key (b64encode (nonce ++ (gcmCt key nonce pt ++
      (gcmTag key nonce (gcmCt key nonce pt)).set i v))) =
      .error .decryptionFailed := by
  have htlen : (gcmTag key nonce (gcmCt key nonce pt)).length = 16 :=
    gcmTag_length _ _ _
  have hset_lt : ∀ b ∈ (gcmTag key nonce (gcmCt key nonce pt)).set i v,
      b < 256 := by
    intro b hb
    rcases List.mem_or_eq_of_mem_set hb with h | rfl
    · exact gcmTag_lt _ _ _ b h
    · exact hv
  have hdata : ∀ b ∈ nonce ++ (gcmCt key nonce pt ++
      (gcmTag key nonce (gcmCt key nonce pt)).set i v), b < 256 := by
    intro b hb
    rcases List.mem_append.mp hb with h | h
    · exact hnb b h
    · rcases List.mem_append.mp h with h | h
      · exact gcmCt_lt _ _ _ hpb b h
      · exact hset_lt b h
  have hblob : b64encode (nonce ++ (gcmCt key nonce pt ++
      (gcmTag key nonce (gcmCt key nonce pt)).set i v)) ≠ [] := by
    apply b64encode_ne_nil
    intro hcontra
    have := congrArg List.length hcontra
    simp [hn] at this
  rw [decrypt_split key nonce (gcmCt key nonce pt) _ _ hn
    (by rw [List.length_set, htlen]) hblob (b64decode_b64encode _ hdata)]
  rw [if_neg]
  intro hcontra
  exact list_set_ne (by rw [htlen]; exact hi) hne hcontra.symm

/-- Witness for the amended C8: whichever value the first tag byte has,
one of the two candidate overwrites changes it, and that decryption
fails. -/
theorem C8_tag_tamper_rejected_witness :
    decrypt (derive_key [107] [115])
      (b64encode (List.replicate 12 0 ++
        (gcmCt (derive_key [107] [115]) (List.replicate 12 0) [65] ++
          (gcmTag (derive_key [107] [115]) (List.replicate 12 0)
            (gcmCt (derive_key [107] [115]) (List.replicate 12 0) [65])).set
            0 0))) = .error .decryptionFailed ∨
    decrypt (derive_key [107] [115])
      (b64encode (List.replicate 12 0 ++
        (gcmCt (derive_key [107] [115]) (List.replicate 12 0) [65] ++
          (gcmTag (derive_key [107] [115]) (List.replicate 12 0)
            (gcmCt (derive_key [107] [115]) (List.replicate 12 0) [65])).set
            0 1))) = .error .decryptionFailed := by
  by_cases h : (gcmTag (derive_key [107] [115]) (List.replicate 12 0)
      (gcmCt (derive_key [107] [115]) (List.replicate 12 0) [65])).getD 0 0 = 0
  · exact Or.inr (C8_tag_tamper_rejected _ _ _ 0 1 (by decide) (by decide)
      (by decide) (by decide) (by decide) (by rw [h]; decide))
  · exact Or.inl (C8_tag_tamper_rejected _ _ _ 0 0 (by decide) (by decide)
      (by decide) (by decide) (by decide) (fun hc => h hc.symm))

/-- Flipping the lowest unused trailing bit of the final base64 character
yields a blob that differs in one byte yet still decrypts successfully to
the original plaintext: CPython's decoder ignores nonzero unused bits in
the final quantum. -/
theorem trailing_bit_flip (key nonce pt : List Nat)
    (hn : nonce.length = 12) (hnb : ∀ b ∈ nonce, b < 256)
    (hpb : ∀ b ∈ pt, b < 256) (hlen : pt.length = 1) :
    ∃ i c, (encrypt key nonce pt).set i c ≠ encrypt key nonce pt ∧
      decrypt key ((encrypt key nonce pt).set i c) = .ok pt := by
  have hpt : pt ≠ [] := by
    intro hc; rw [hc] at hlen; simp at hlen
  obtain ⟨ct, hct⟩ : ∃ ct, gcmCt key nonce pt = ct := ⟨_, rfl⟩
  obtain ⟨tg, htg⟩ : ∃ tg, gcmTag key nonce (gcmCt key nonce pt) = tg :=
    ⟨_, rfl⟩
  have hctlen : ct.length = 1 := by
    rw [← hct, gcmCt_length, hlen]
  have htglen : tg.length = 16 := by rw [← htg]; exact gcmTag_length _ _ _
  have hctb : ∀ b ∈ ct, b < 256 := by
    rw [← hct]; exact gcmCt_lt _ _ _ hpb
  have htgb : ∀ b ∈ tg, b < 256 := by
    rw [← htg]; exact gcmTag_lt _ _ _
  have hdroplen : (tg.drop 14).length = 2 := by
    rw [List.length_drop, htglen]
  obtain ⟨x, y, hxy⟩ := List.length_eq_two.mp hdroplen
  have htagsplit : tg = tg.take 14 ++ [x, y] := by
    rw [← hxy]
    exact (List.take_append_drop 14 tg).symm
  have hx : x < 256 := htgb x (List.drop_subset 14 tg (by rw [hxy]; simp))
  have hy : y < 256 := htgb y (List.drop_subset 14 tg (by rw [hxy]; simp))
  have hdata_eq : nonce ++ (ct ++ tg) =
      (nonce ++ (ct ++ tg.take 14)) ++ [x, y] := by
    conv_lhs => rw [htagsplit]
    simp [List.append_assoc]
  have hl0len : (nonce ++ (ct ++ tg.take 14)).length = 27 := by
    simp only [List.length_append, List.length_take, htglen, hn, hctlen]
    omega
  have hl0b : ∀ b ∈ nonce ++ (ct ++ tg.take 14), b < 256 := by
    intro b hb
    rcases List.mem_append.mp hb with h | h
    · exact hnb b h
    · rcases List.mem_append.mp h with h | h
      · exact hctb b h
      · exact htgb b (List.take_subset 14 tg h)
  have henc : encrypt key nonce pt = b64encode (nonce ++ (ct ++ tg)) := by
    unfold encrypt
    rw [if_neg hpt, htg, hct]
  have henc2 : b64encode (nonce ++ (ct ++ tg)) =
      b64encode (nonce ++ (ct ++ tg.take 14)) ++ b64encode [x, y] := by
    rw [hdata_eq]
    exact b64encode_append3 _ [x, y] (by rw [hl0len])
  have he0len : (b64encode (nonce ++ (ct ++ tg.take 14))).length = 36 := by
    rw [b64encode_length3 _ (by rw [hl0len]), hl0len]
  refine ⟨38, b64char ((y % 16) * 4 + 1), ?_, ?_⟩
  · rw [henc, henc2]
    have hset : (b64encode (nonce ++ (ct ++ tg.take 14)) ++
        b64encode [x, y]).set 38 (b64char ((y % 16) * 4 + 1)) =
        b64encode (nonce ++ (ct ++ tg.take 14)) ++
          [b64char (x / 4), b64char ((x % 4) * 16 + y / 16),
           b64char ((y % 16) * 4 + 1), 61] := by
      rw [show (38 : Nat) =
        (b64encode (nonce ++ (ct ++ tg.take 14))).length + 2 from by
          rw [he0len]]
      rw [set_append_right]
      rfl
    rw [hset]
    intro hcontra
    have hq := List.append_cancel_left hcontra
    have hchar : b64char ((y % 16) * 4 + 1) = b64char ((y % 16) * 4) := by
      have : b64encode [x, y] = [b64char (x / 4),
          b64char ((x % 4) * 16 + y / 16), b64char ((y % 16) * 4), 61] := rfl
      rw [this] at hq
      simpa using hq
    have := b64char_inj _ (by omega) _ (by omega) hchar
    omega
  · rw [henc, henc2]
    have hset : (b64encode (nonce ++ (ct ++ tg.take 14)) ++
        b64encode [x, y]).set 38 (b64char ((y % 16) * 4 + 1)) =
        b64encode (nonce ++ (ct ++ tg.take 14)) ++
          [b64char (x / 4), b64char ((x % 4) * 16 + y / 16),
           b64char ((y % 16) * 4 + 1), 61] := by
      rw [show (38 : Nat) =
        (b64encode (nonce ++ (ct ++ tg.take 14))).length + 2 from by
          rw [he0len]]
      rw [set_append_right]
      rfl
    rw [hset]
    apply decrypt_blob_of_encrypt key nonce pt _ hn
    · simp
    · have hquad : b64decode [b64char (x / 4),
          b64char ((x % 4) * 16 + y / 16),
          b64char ((y % 16) * 4 + 1), 61] = .ok [x, y] :=
        quad2_decode x y 1 hx hy (by decide)
      have hfull := b64decode_encode_append (nonce ++ (ct ++ tg.take 14))
        hl0b (by rw [hl0len]) hquad
      rw [hfull, ← hdata_eq, htg, hct]

/-- Counterexample to C8 as stated: not every single-byte modification of
a non-empty encrypted blob is rejected — flipping an unused trailing bit
of the final base64 character leaves decryption succeeding. -/
theorem C8_byte_flip_cex :
    ¬ ∀ (key nonce pt : List Nat), nonce.length = 12 →
      (∀ b ∈ nonce, b < 256) → (∀ b ∈ pt, b < 256) → pt ≠ [] →
      ∀ i c, (encrypt key nonce pt).set i c ≠ encrypt key nonce pt →
        decrypt key ((encrypt key nonce pt).set i c) =
          .error .decryptionFailed := by
  intro hclaim
  obtain ⟨i, c, hne, hok⟩ := trailing_bit_flip (List.replicate 32 0)
    (List.replicate 12 0) [65] (by decide) (by decide) (by decide)
    (by decide)
  have herr := hclaim (List.replicate 32 0) (List.replicate 12 0) [65]
    (by decide) (by decide) (by decide) (by decide) i c hne
  rw [hok] at herr
  cases herr

end Pollivu
